import Mathlib

/-!
Verification of the track-changes core (blame map, history state, revert
engine, highlight overlay) of the `tiptap-extension-track-changes`
repository.  The definitions below are a shallow embedding of
`src/trackChangesPlugin.ts` and the extension command file.  Documents are
plain text (lists of characters) and edit steps are text replacements, the
specialisation of the editor's `ReplaceStep` to text; the position-mapping
fragments such steps produce are single replaced ranges, exactly what
`ReplaceStep.getMap()` yields in the mapping engine the plugin consumes.
All document positions are integers (JavaScript numbers).
-/

namespace TrackChanges

/-- A text document. -/
abbrev Doc := List Char

/-- `Span` from `trackChangesPlugin.ts`: a range `[from, to)` attributed to
an (optional) commit id. -/
structure Span where
  from_ : Int
  to_ : Int
  commit : Option Nat
  deriving DecidableEq, Repr

/-- A position-mapping fragment: the single replaced range
`[start, start+oldSize) ↦ [start, start+newSize)` that a text replace step
reports (`StepMap` of the mapping engine, specialised to one range). -/
structure StepMap where
  start : Int
  oldSize : Int
  newSize : Int
  deriving DecidableEq, Repr

/-- `StepMap.map(pos, assoc)` of the mapping engine for a single-range map:
positions before the range are unchanged, positions after it are shifted by
the size delta, and positions touching the range resolve to its start or end
according to the side they associate with (`assoc = -1` sticks to the
content before the position, `assoc = 1` to the content after it). -/
def StepMap.map (m : StepMap) (pos : Int) (assoc : Int) : Int :=
  if m.start > pos then pos
  else if pos ≤ m.start + m.oldSize then
    let side : Int :=
      if m.oldSize = 0 then assoc
      else if pos = m.start then -1
      else if pos = m.start + m.oldSize then 1
      else assoc
    m.start + (if side < 0 then 0 else m.newSize)
  else pos + (m.newSize - m.oldSize)

/-- `Mapping.map(pos, assoc)` for a mirror-free mapping (the cumulative
mapping of a transform): fold the fragment maps left to right. -/
def mapL (ms : List StepMap) (pos : Int) (assoc : Int) : Int :=
  ms.foldl (fun p m => m.map p assoc) pos

/-- A text replace step (`ReplaceStep` specialised to text): replace
`[from, to)` of the document by `slice`. -/
structure RStep where
  from_ : Int
  to_ : Int
  slice : List Char
  deriving DecidableEq, Repr

/-- Applying a replace step to a document; `none` when the range is not a
valid range of the document (the engine's step-apply failure). -/
def RStep.applyTo (s : RStep) (d : Doc) : Option Doc :=
  if 0 ≤ s.from_ ∧ s.from_ ≤ s.to_ ∧ s.to_ ≤ (d.length : Int) then
    some (d.take s.from_.toNat ++ s.slice ++ d.drop s.to_.toNat)
  else none

/-- `step.invert(doc)`: the inverse of a replace step, computed against the
document the step was applied to. -/
def RStep.invert (s : RStep) (d : Doc) : RStep :=
  ⟨s.from_, s.from_ + s.slice.length, (d.drop s.from_.toNat).take (s.to_ - s.from_).toNat⟩

/-- `step.getMap()`: the position-mapping fragment of a replace step. -/
def RStep.getMap (s : RStep) : StepMap :=
  ⟨s.from_, s.to_ - s.from_, (s.slice.length : Int)⟩

/-- `Commit` from `trackChangesPlugin.ts`. -/
structure Commit where
  message : String
  time : Int
  steps : List RStep
  maps : List StepMap
  hidden : Bool := false
  deriving DecidableEq, Repr

/-- `TrackState` from `trackChangesPlugin.ts`. -/
structure TrackState where
  blameMap : List Span
  commits : List Commit
  uncommittedSteps : List RStep
  uncommittedMaps : List StepMap
  deriving DecidableEq, Repr

/-! ### `insertIntoBlameMap`

The imperative function from `trackChangesPlugin.ts` is split into its two
loops.  `insertConsume` is the `while` loop (absorbing/overwriting the spans
that overlap the inserted range, then placing the new span), `insertScan` is
the initial `for` loop (skipping spans entirely before the range and
splitting a differently-attributed span that sticks out to the left). -/

/-- The `while` loop of `insertIntoBlameMap` followed by the final
`map.splice(pos, 0, new Span(from, to, commit))`. -/
def insertConsume (id : Nat) : List Span → Int → Int → List Span
  | [], f, t => [⟨f, t, some id⟩]
  | next :: rest, f, t =>
    if next.commit = some id then
      if next.from_ > t then ⟨f, t, some id⟩ :: next :: rest
      else insertConsume id rest (min f next.from_) (max t next.to_)
    else if next.from_ ≥ t then ⟨f, t, some id⟩ :: next :: rest
    else if next.to_ > t then ⟨f, t, some id⟩ :: ⟨t, next.to_, next.commit⟩ :: rest
    else insertConsume id rest f t

/-- The scanning `for` loop of `insertIntoBlameMap`. -/
def insertScan (id : Nat) : List Span → Int → Int → List Span
  | [], f, t => [⟨f, t, some id⟩]
  | next :: rest, f, t =>
    if next.commit = some id then
      if next.to_ ≥ f then insertConsume id (next :: rest) f t
      else next :: insertScan id rest f t
    else if next.to_ > f then
      if next.from_ < f then
        if next.to_ > t then ⟨next.from_, f, next.commit⟩ :: insertConsume id (next :: rest) f t
        else ⟨next.from_, f, next.commit⟩ :: insertConsume id rest f t
      else insertConsume id (next :: rest) f t
    else next :: insertScan id rest f t

/-- `insertIntoBlameMap(map, from, to, commit)` from
`trackChangesPlugin.ts`. -/
def insertIntoBlameMap (map : List Span) (f t : Int) (id : Nat) : List Span :=
  if f ≥ t then map else insertScan id map f t

/-- The first loop of `updateBlameMap`: remap every existing span through
the transform's cumulative mapping (`from` with assoc `1`, `to` with assoc
`-1`) and keep it when the result is still a non-empty range. -/
def survivorLoop (ms : List StepMap) : List Span → List Span
  | [] => []
  | sp :: rest =>
    let f := mapL ms sp.from_ 1
    let t := mapL ms sp.to_ (-1)
    if f < t then ⟨f, t, sp.commit⟩ :: survivorLoop ms rest
    else survivorLoop ms rest

/-- The second loop of `updateBlameMap`: for each fragment of the mapping,
insert its replaced output range — remapped through the remaining fragments
(`mapping.slice(i + 1)`) — into the blame map with the pending commit id.
For a single-range fragment, `map.forEach` reports the one range
`[start, start+newSize)`. -/
def insertPhase (id : Nat) : List Span → List StepMap → List Span
  | res, [] => res
  | res, m :: rest =>
    insertPhase id
      (insertIntoBlameMap res (mapL rest m.start 1) (mapL rest (m.start + m.newSize) (-1)) id)
      rest

/-- `updateBlameMap(map, transform, id)` from `trackChangesPlugin.ts`,
with the transform represented by the list of its fragment maps. -/
def updateBlameMap (map : List Span) (ms : List StepMap) (id : Nat) : List Span :=
  insertPhase id (survivorLoop ms map) ms

/-- `applySeq d steps`: apply a transform's steps in order. -/
def applySeq : Doc → List RStep → Option Doc
  | d, [] => some d
  | d, s :: rest =>
    match s.applyTo d with
    | some d' => applySeq d' rest
    | none => none

/-- The inverted steps of a transform, in original (forward) order, each
computed against the document immediately before it
(`transform.steps.map((step, i) => step.invert(transform.docs[i]))`). -/
def invertSeq : Doc → List RStep → List RStep
  | _, [] => []
  | d, s :: rest => s.invert d :: invertSeq ((s.applyTo d).getD d) rest

/-- `TrackState.applyTransform` from `trackChangesPlugin.ts`: `d` is the
document the transform starts from. -/
def TrackState.applyTransform (ts : TrackState) (d : Doc) (steps : List RStep) : TrackState :=
  { blameMap := updateBlameMap ts.blameMap (steps.map RStep.getMap) ts.commits.length
    commits := ts.commits
    uncommittedSteps := ts.uncommittedSteps ++ invertSeq d steps
    uncommittedMaps := ts.uncommittedMaps ++ steps.map RStep.getMap }

/-- `TrackState.applyCommit` from `trackChangesPlugin.ts`. -/
def TrackState.applyCommit (ts : TrackState) (message : String) (time : Int) : TrackState :=
  if ts.uncommittedSteps = [] then ts
  else
    { blameMap := ts.blameMap
      commits := ts.commits ++ [⟨message, time, ts.uncommittedSteps, ts.uncommittedMaps, false⟩]
      uncommittedSteps := []
      uncommittedMaps := [] }

/-- The state the plugin sees: the current document together with the
tracked state. -/
structure EdState where
  doc : Doc
  track : TrackState
  deriving DecidableEq, Repr

/-- One document-changing transaction as the plugin sees it: the document
advances by the transform's steps and the tracked state by
`applyTransform`. -/
def edTransform (S : EdState) (steps : List RStep) : EdState :=
  ⟨(applySeq S.doc steps).getD S.doc, S.track.applyTransform S.doc steps⟩

/-- A run of document-changing transactions with no commit in between. -/
def edTransforms (S : EdState) : List (List RStep) → EdState
  | [] => S
  | tf :: rest => edTransforms (edTransform S tf) rest

/-- Reachable plugin states: the initial state created by the plugin's
`init` (one unattributed span covering the whole document), advanced by
document-changing transactions (`applyTransform`) and commit transactions
(`applyCommit`). -/
inductive Reach : EdState → Prop
  | init (d : Doc) :
      Reach ⟨d, ⟨[⟨0, (d.length : Int), none⟩], [], [], []⟩⟩
  | tstep {S : EdState} {steps : List RStep} {d' : Doc} :
      Reach S → applySeq S.doc steps = some d' →
      Reach ⟨d', S.track.applyTransform S.doc steps⟩
  | cstep {S : EdState} (msg : String) (time : Int) :
      Reach S → Reach ⟨S.doc, S.track.applyCommit msg time⟩

/-! ### Attribution-map invariants -/

/-- The spans are sorted and pairwise non-overlapping: each span ends no
later than the next one starts. -/
def Sorted (M : List Span) : Prop :=
  List.Chain' (fun a b => a.to_ ≤ b.from_) M

/-- Every span is a (possibly empty) forward range. -/
def WfSpans (M : List Span) : Prop :=
  ∀ sp ∈ M, sp.from_ ≤ sp.to_

/-- The set of document positions covered by the spans. -/
def unionSpans (M : List Span) : Set Int :=
  {p | ∃ sp ∈ M, sp.from_ ≤ p ∧ p < sp.to_}

/-- No two adjacent spans carry the same attribution. -/
def Coalesced (M : List Span) : Prop :=
  List.Chain' (fun a b => a.commit ≠ b.commit) M

/-- The full property claimed of every reachable state's attribution map. -/
def BlameInvFull (M : List Span) (L : Int) : Prop :=
  Sorted M ∧ WfSpans M ∧ unionSpans M = Set.Ico 0 L ∧ Coalesced M

/-- A well-formed mapping fragment: nonnegative start and sizes. -/
def WfMap (m : StepMap) : Prop :=
  0 ≤ m.start ∧ 0 ≤ m.oldSize ∧ 0 ≤ m.newSize

/-- The fragments of a transform starting on a document of length `L`: each
fragment replaces a valid range of the document it applies to. -/
def ValidMaps : Int → List StepMap → Prop
  | _, [] => True
  | L, m :: rest => (WfMap m ∧ m.start + m.oldSize ≤ L) ∧ ValidMaps (L + m.newSize - m.oldSize) rest

/-- The total document-length change of a list of fragments. -/
def deltaMaps (ms : List StepMap) : Int :=
  (ms.map fun m => m.newSize - m.oldSize).sum

/-- The ranges inserted by the second loop of `updateBlameMap`: for each
fragment, its output range remapped through the remaining fragments. -/
def phase2Intervals : List StepMap → List (Int × Int)
  | [] => []
  | m :: rest => (mapL rest m.start 1, mapL rest (m.start + m.newSize) (-1)) :: phase2Intervals rest

/-- The set of positions covered by a list of intervals. -/
def unionI (l : List (Int × Int)) : Set Int :=
  {p | ∃ pr ∈ l, pr.1 ≤ p ∧ p < pr.2}

/-- A concrete reachable state: on an initially empty document, insert
"ab", commit, insert "x" at 1, commit, then delete `[1, 2)`. -/
def cexState : EdState :=
  ⟨['a', 'b'],
    (((((⟨[⟨0, 0, none⟩], [], [], []⟩ : TrackState).applyTransform []
          [⟨0, 0, ['a', 'b']⟩]).applyCommit "c0" 0).applyTransform ['a', 'b']
          [⟨1, 1, ['x']⟩]).applyCommit "c1" 0).applyTransform ['a', 'x', 'b']
          [⟨1, 2, []⟩]⟩

/-! ### The full mapping pipeline (mirror pairs and position recovery)

The revert engine manipulates a `Mapping`: an ordered pipeline of fragment
maps with a window `[from, to)` of active fragments and a set of mirror
pairs.  When a position is deleted by fragment `i` and fragment `i` is
mirrored by a later fragment `corr` inside the window, the walk recovers
the position through `corr` and resumes after it.  This embeds the mapping
engine's `Mapping#_map`, `Mapping#slice` and `Mapping#appendMap`, which the
revert code drives via `remap.slice(i + 1)` and
`remap.appendMap(remapped.getMap(), i)`. -/

/-- The deletion flags a position-mapping result reports. -/
structure DelInfo where
  before : Bool
  after : Bool
  across : Bool
  side : Bool
  deriving DecidableEq, Repr

/-- No deletion flag set. -/
def DelInfo.none_ : DelInfo := ⟨false, false, false, false⟩

/-- Accumulate deletion flags (`delInfo |= result.delInfo`). -/
def DelInfo.or (a b : DelInfo) : DelInfo :=
  ⟨a.before || b.before, a.after || b.after, a.across || b.across, a.side || b.side⟩

/-- A mapped position together with its deletion flags and recovery value
(the offset of the position inside the replaced range, when recoverable). -/
structure MapResult where
  pos : Int
  del : DelInfo
  recover : Option Int
  deriving DecidableEq, Repr

/-- `StepMap#mapResult` for a single-range fragment: like `StepMap.map`,
but also reporting the deletion flags (content deleted after a position at
the range start, before a position at its end, across an interior position;
the `side` flag when the associated side itself is deleted) and a recovery
offset for positions that are not at the boundary the association keeps. -/
def StepMap.mapResult (m : StepMap) (pos : Int) (assoc : Int) : MapResult :=
  if m.start > pos then ⟨pos, DelInfo.none_, none⟩
  else if pos ≤ m.start + m.oldSize then
    let e := m.start + m.oldSize
    let side : Int :=
      if m.oldSize = 0 then assoc
      else if pos = m.start then -1
      else if pos = e then 1
      else assoc
    { pos := m.start + (if side < 0 then 0 else m.newSize)
      del :=
        { after := pos = m.start
          before := pos ≠ m.start ∧ pos = e
          across := pos ≠ m.start ∧ pos ≠ e
          side := if assoc < 0 then pos ≠ m.start else pos ≠ e }
      recover := if pos = (if assoc < 0 then m.start else e) then none else some (pos - m.start) }
  else ⟨pos + (m.newSize - m.oldSize), DelInfo.none_, none⟩

/-- `StepMap#recover` for a single-range fragment: the position in the
fragment's output document at the given offset into its replaced range. -/
def StepMap.recoverPos (m : StepMap) (off : Int) : Int := m.start + off

/-- Look up the mirror partner of fragment `n` in a list of mirror pairs
(`Mapping#getMirror`). -/
def getMirrorL (mirror : List (Nat × Nat)) (n : Nat) : Option Nat :=
  match mirror.find? (fun p => p.1 = n || p.2 = n) with
  | some p => some (if p.1 = n then p.2 else p.1)
  | none => none

/-- The walk of `Mapping#_map`: map the position through the fragments of
the window `[i, bound)` in order; when a fragment reports a recovery value
and has a mirror partner further inside the window, recover the position
through the partner and resume after it (accumulating no deletion flags for
the pair).
The recursion is made structural by a fuel argument: every iteration of the
loop advances the index by at least one, so `bound` units of credit always
cover a walk starting at any index. -/
def mapWalk (maps : List StepMap) (mirror : List (Nat × Nat)) (bound : Nat) (assoc : Int) :
    Nat → Nat → Int → DelInfo → MapResult
  | 0, _, pos, del => ⟨pos, del, none⟩
  | fuel + 1, i, pos, del =>
    if i < bound then
      let m := maps.getD i ⟨0, 0, 0⟩
      let r := m.mapResult pos assoc
      match r.recover with
      | some off =>
        match getMirrorL mirror i with
        | some corr =>
          if i < corr ∧ corr < bound then
            mapWalk maps mirror bound assoc fuel (corr + 1)
              ((maps.getD corr ⟨0, 0, 0⟩).recoverPos off) del
          else
            mapWalk maps mirror bound assoc fuel (i + 1) r.pos (del.or r.del)
        | none => mapWalk maps mirror bound assoc fuel (i + 1) r.pos (del.or r.del)
      | none => mapWalk maps mirror bound assoc fuel (i + 1) r.pos (del.or r.del)
    else ⟨pos, del, none⟩

/-- The fragment of the inverse step: the same range with old and new sizes
exchanged. -/
def invStepMap (m : StepMap) : StepMap :=
  ⟨m.start, m.newSize, m.oldSize⟩

/-- A mirrored palindrome segment of a pipeline: the window `[lo, hi)`
consists of fragment pairs `(maps[lo], maps[hi-1])`, each an inverse pair
recorded in the mirror list, around a nested inner palindrome.  This is the
shape of `remap.slice(i + 1)` during the revert walk, where the fragments
of the undone steps sit at the end, mirror-paired with their original
slots. -/
inductive IsPalin (maps : List StepMap) (mirror : List (Nat × Nat)) : Nat → Nat → Prop
  | nil (lo : Nat) : IsPalin maps mirror lo lo
  | step (lo hi : Nat) (m : StepMap) :
      lo + 2 ≤ hi →
      0 ≤ m.oldSize →
      0 ≤ m.newSize →
      maps[lo]? = some m →
      maps[hi - 1]? = some (invStepMap m) →
      getMirrorL mirror lo = some (hi - 1) →
      getMirrorL mirror (hi - 1) = some lo →
      IsPalin maps mirror (lo + 1) (hi - 1) →
      IsPalin maps mirror lo hi

/-- A run of transactions each of which applies cleanly to the document it
receives. -/
def TransformsOK : Doc → List (List RStep) → Prop
  | _, [] => True
  | d, tf :: rest => ∃ d', applySeq d tf = some d' ∧ TransformsOK d' rest

/-- The mapping pipeline (`Mapping` of the mapping engine). -/
structure Mapping where
  maps : List StepMap
  mirror : List (Nat × Nat)
  from_ : Nat
  to_ : Nat
  deriving DecidableEq, Repr

/-- `new Mapping(maps)`: window over all fragments, no mirror pairs. -/
def Mapping.ofMaps (ms : List StepMap) : Mapping := ⟨ms, [], 0, ms.length⟩

/-- `Mapping#mapResult`. -/
def Mapping.mapResult (M : Mapping) (pos assoc : Int) : MapResult :=
  mapWalk M.maps M.mirror M.to_ assoc M.to_ M.from_ pos DelInfo.none_

/-- `Mapping#slice(from)` (the upper end defaults to the number of
fragments). -/
def Mapping.slice (M : Mapping) (f : Nat) : Mapping :=
  ⟨M.maps, M.mirror, f, M.maps.length⟩

/-- `Mapping#appendMap(map, mirrors)`: push the fragment at the end of the
pipeline, extend the window over it, and — when `mirrors` is given — record
the mirror pair between the new fragment and fragment `mirrors`. -/
def Mapping.appendMap (M : Mapping) (m : StepMap) (mirrorTo : Option Nat) : Mapping :=
  { maps := M.maps ++ [m]
    mirror :=
      match mirrorTo with
      | some k => M.mirror ++ [(M.maps.length, k)]
      | none => M.mirror
    from_ := M.from_
    to_ := M.maps.length + 1 }

/-- `ReplaceStep#map(mapping)`: map `from` with right association and `to`
with left association; the step is lost when both ends were deleted across. -/
def RStep.mapThrough (s : RStep) (M : Mapping) : Option RStep :=
  let f := M.mapResult s.from_ 1
  let t := M.mapResult s.to_ (-1)
  if f.del.across && t.del.across then none
  else some ⟨f.pos, max f.pos t.pos, s.slice⟩

/-! ### The revert engine (`revertCommit` of the extension file) -/

/-- A transaction under construction: the current document and the steps
applied so far. -/
structure Tr where
  doc : Doc
  steps : List RStep
  deriving DecidableEq, Repr

/-- `tr.maybeStep(step)`: apply the step if the current document admits it,
report failure otherwise without changing the transaction. -/
def Tr.maybeStep (tr : Tr) (s : RStep) : Tr × Bool :=
  match s.applyTo tr.doc with
  | some d' => (⟨d', tr.steps ++ [s]⟩, true)
  | none => (tr, false)

/-- The reverse walk of `revertCommit`: `revertGo csteps (i+1) remap tr`
processes the stored inverse operation at index `i`, then the earlier ones.
The operation is remapped through `remap.slice(i + 1)`; if remapping or
best-effort application fails the operation is skipped; on success the
produced fragment is appended to the pipeline, mirror-paired with slot
`i`. -/
def revertGo (csteps : List RStep) : Nat → Mapping → Tr → Mapping × Tr
  | 0, remap, tr => (remap, tr)
  | i + 1, remap, tr =>
    match csteps[i]? with
    | none => revertGo csteps i remap tr
    | some st =>
      match st.mapThrough (remap.slice (i + 1)) with
      | none => revertGo csteps i remap tr
      | some remapped =>
        let (tr', ok) := tr.maybeStep remapped
        if ok then revertGo csteps i (remap.appendMap remapped.getMap (some i)) tr'
        else revertGo csteps i remap tr

/-- `commits.slice(index).reduce((maps, c) => maps.concat(c.maps), [])`. -/
def concatCommitMaps (cs : List Commit) : List StepMap :=
  cs.foldl (fun acc c => acc ++ c.maps) []

/-- `revertCommit` from the extension's command surface: reject (returning
`false` and producing no transaction, so the History State is untouched)
when the commit is not found in the history or uncommitted changes exist;
otherwise build the revert transaction by the reverse walk and return
`true`. -/
def revertCommit (S : EdState) (commit : Commit) : Bool × Option Tr :=
  match S.track.commits.indexOf? commit with
  | none => (false, none)
  | some index =>
    if S.track.uncommittedSteps ≠ [] then (false, none)
    else
      let remap := Mapping.ofMaps (concatCommitMaps (S.track.commits.drop index))
      (true, some (revertGo commit.steps commit.steps.length remap ⟨S.doc, []⟩).2)

/-! ### The highlight overlay (`highlightPlugin` of `trackChangesPlugin.ts`) -/

/-- An inline decoration produced by the overlay (its class is always
`commit-blame-marker`, so only the range is recorded). -/
structure Deco where
  from_ : Int
  to_ : Int
  deriving DecidableEq, Repr

/-- The overlay's plugin state: the decoration set and the commit currently
highlighted (`null` when idle). -/
structure HighlightState where
  deco : List Deco
  commit : Option Commit
  deriving DecidableEq, Repr

/-- The message carried in a transaction's metadata for the overlay:
`{add: commit}` or `{clear: commit}`. -/
inductive HighlightMeta where
  | add (c : Commit)
  | clear (c : Commit)
  deriving DecidableEq, Repr

/-- The overlay's `apply` function.  The source's branch conditions, with
JavaScript truthiness resolved for the two message shapes:
`highlight && highlight.add != null && prev.commit !== highlight.add`
reduces to the message being an `add c` with `prev.commit ≠ c`;
`highlight && highlight.clear !== null && prev.commit === highlight.clear`
can only fire for a `clear c` message with `prev.commit = c` (for an `add`
message `highlight.clear` is `undefined`, and `prev.commit === undefined`
never holds since `prev.commit` is `null` or a commit);
`tr.docChanged && prev.commit` remaps the stored decorations through the
transaction (`remapDeco` stands for `prev.deco.map(tr.mapping, tr.doc)` of
the external decoration engine).  The `add` branch filters the blame map by
`span.commit && commits[span.commit] === highlight.add`: a span passes when
its commit id is present *and non-zero* (`0` is falsy) and indexes the
added commit in `commits`. -/
def highlightApply (meta : Option HighlightMeta) (docChanged : Bool)
    (remapDeco : List Deco → List Deco) (ts : TrackState) (prev : HighlightState) :
    HighlightState :=
  match meta with
  | some (.add c) =>
    if prev.commit ≠ some c then
      { deco :=
          (ts.blameMap.filter fun sp =>
            match sp.commit with
            | some k => decide (k ≠ 0) && decide (ts.commits[k]? = some c)
            | none => false).map fun sp => (⟨sp.from_, sp.to_⟩ : Deco)
        commit := some c }
    else if docChanged && prev.commit.isSome then ⟨remapDeco prev.deco, prev.commit⟩
    else prev
  | some (.clear c) =>
    if prev.commit = some c then ⟨[], none⟩
    else if docChanged && prev.commit.isSome then ⟨remapDeco prev.deco, prev.commit⟩
    else prev
  | none =>
    if docChanged && prev.commit.isSome then ⟨remapDeco prev.deco, prev.commit⟩
    else prev

/-! ### Survivor phase: the spec's wording versus the source -/

/-- The survivor phase as the specification words it: `from` mapped with a
left-biased mapping (assoc `-1`, sticking to the content before the
position) and `to` with a right-biased mapping (assoc `1`).  This
definition follows the spec's words and is compared against `survivorLoop`,
which embeds the source. -/
def survivorsSpecBias (ms : List StepMap) (map : List Span) : List Span :=
  map.filterMap fun sp =>
    let f := mapL ms sp.from_ (-1)
    let t := mapL ms sp.to_ 1
    if f < t then some ⟨f, t, sp.commit⟩ else none

/-! ### Revert walk: the spec's wording versus the source -/

/-- `insertFragment(mapping, fragment, atIndex)` as the specification words
it: the fragment is placed *at slot `atIndex`* of the pipeline, shifting the
later fragments.  This definition follows the spec's words and is compared
with the source's `Mapping.appendMap`. -/
def insertFragmentAt (M : Mapping) (m : StepMap) (i : Nat) : Mapping :=
  ⟨M.maps.take i ++ [m] ++ M.maps.drop i, M.mirror, M.from_, M.maps.length + 1⟩

/-- The revert walk as the specification words it: identical to `revertGo`,
except that a successfully applied operation's mapping fragment is inserted
into the pipeline at slot `i` instead of appended at the end with a mirror
pair.  This definition follows the spec's words and is compared with the
source's `revertGo`. -/
def revertGoSpec (csteps : List RStep) : Nat → Mapping → Tr → Mapping × Tr
  | 0, remap, tr => (remap, tr)
  | i + 1, remap, tr =>
    match csteps[i]? with
    | none => revertGoSpec csteps i remap tr
    | some st =>
      match st.mapThrough (remap.slice (i + 1)) with
      | none => revertGoSpec csteps i remap tr
      | some remapped =>
        let (tr', ok) := tr.maybeStep remapped
        if ok then revertGoSpec csteps i (insertFragmentAt remap remapped.getMap i) tr'
        else revertGoSpec csteps i remap tr

/-- The shape of the revert walk's cumulative remap pipeline when the steps
with index `≥ i` of a commit whose step maps are `cm` (and `n = cm.length`)
have been processed: the commit's own fragments followed by the inverse
fragments of the processed steps in reverse order, each mirror-paired with
its original slot. -/
def revertPipe (cm : List StepMap) (n i : Nat) : Mapping :=
  ⟨cm ++ ((cm.drop i).map invStepMap).reverse,
   (List.range (n - i)).map (fun k => ((n + k : Nat), (n - 1 - k : Nat))),
   0, 2 * n - i⟩

end TrackChanges

namespace TrackChanges

/-! ## Claim theorems -/

/-- C10: for every blame map, commit id and positions with `from ≥ to`,
`insertIntoBlameMap` returns the map unchanged. -/
theorem c10_degenerate_insert_noop (map : List Span) (f t : Int) (id : Nat)
    (h : f ≥ t) : insertIntoBlameMap map f t id = map := by
  simp [insertIntoBlameMap, h]

/-- Witness for C10 at a concrete degenerate range. -/
theorem c10_degenerate_insert_noop_witness :
    insertIntoBlameMap [⟨0, 5, none⟩] 3 3 1 = [⟨0, 5, none⟩] :=
  c10_degenerate_insert_noop [⟨0, 5, none⟩] 3 3 1 (by decide)

/-- C6: `applyCommit` returns the state unchanged when the pending buffer is
empty; otherwise it appends one commit built from the pending buffers,
clears both buffers, and keeps the blame map. -/
theorem c6_applyCommit_spec (ts : TrackState) (message : String) (time : Int) :
    (ts.uncommittedSteps = [] ∧ ts.applyCommit message time = ts) ∨
    (ts.uncommittedSteps ≠ [] ∧
      (ts.applyCommit message time).commits =
        ts.commits ++ [⟨message, time, ts.uncommittedSteps, ts.uncommittedMaps, false⟩] ∧
      (ts.applyCommit message time).uncommittedSteps = [] ∧
      (ts.applyCommit message time).uncommittedMaps = [] ∧
      (ts.applyCommit message time).blameMap = ts.blameMap) := by
  by_cases h : ts.uncommittedSteps = []
  · exact Or.inl ⟨h, by simp [TrackState.applyCommit, h]⟩
  · exact Or.inr ⟨h, by simp [TrackState.applyCommit, h]⟩

/-- C3 counterexample: on the single-fragment mapping that inserts two
characters at position 5 and the span `[3, 5)`, the source maps the span to
`[3, 5)` (the insertion at its right edge is not absorbed), while the
spec's bias assignment (`from` left-biased, `to` right-biased) would map it
to `[3, 7)`.  The claim's bias assignment is therefore false of the code. -/
theorem c3_survivor_bias_counterexample :
    survivorLoop [⟨5, 0, 2⟩] [⟨3, 5, none⟩] = [⟨3, 5, none⟩] ∧
    survivorsSpecBias [⟨5, 0, 2⟩] [⟨3, 5, none⟩] = [⟨3, 7, none⟩] ∧
    survivorLoop [⟨5, 0, 2⟩] [⟨3, 5, none⟩] ≠
      survivorsSpecBias [⟨5, 0, 2⟩] [⟨3, 5, none⟩] := by
  refine ⟨by decide, by decide, by decide⟩

/-! ## Position-mapping arithmetic -/

/-- Zone characterisation of a single-fragment map: positions before the
range are fixed, positions touching it land on its start or end, positions
after it shift by the delta. -/
theorem StepMap.map_cases (m : StepMap) (pos assoc : Int) :
    (pos < m.start ∧ m.map pos assoc = pos) ∨
    (m.start ≤ pos ∧ pos ≤ m.start + m.oldSize ∧
      (m.map pos assoc = m.start ∨ m.map pos assoc = m.start + m.newSize)) ∨
    (m.start + m.oldSize < pos ∧ m.map pos assoc = pos + (m.newSize - m.oldSize)) := by
  simp only [StepMap.map]
  split_ifs <;> omega

/-- A fragment map is monotone (at a fixed association). -/
theorem StepMap.map_mono (m : StepMap) (hw : WfMap m) {a b : Int} (hab : a ≤ b)
    (assoc : Int) : m.map a assoc ≤ m.map b assoc := by
  obtain ⟨h1, h2, h3⟩ := hw
  simp only [StepMap.map]
  split_ifs <;> omega

/-- A left-associated position never maps past a later right-associated
position. -/
theorem StepMap.map_cross (m : StepMap) (hw : WfMap m) {a b : Int} (hab : a ≤ b) :
    m.map a (-1) ≤ m.map b 1 := by
  obtain ⟨h1, h2, h3⟩ := hw
  simp only [StepMap.map]
  split_ifs <;> omega

/-- `mapL` is monotone (at a fixed association). -/
theorem mapL_mono (ms : List StepMap) (h : ∀ m ∈ ms, WfMap m) {a b : Int}
    (hab : a ≤ b) (assoc : Int) : mapL ms a assoc ≤ mapL ms b assoc := by
  induction ms generalizing a b with
  | nil => exact hab
  | cons m rest ih =>
      exact ih (fun m' hm' => h m' (List.mem_cons_of_mem m hm'))
        (m.map_mono (h m (List.mem_cons_self m rest)) hab assoc)

/-- A left-associated position never maps past a later right-associated
position, through a whole fragment list. -/
theorem mapL_cross (ms : List StepMap) (h : ∀ m ∈ ms, WfMap m) {a b : Int}
    (hab : a ≤ b) : mapL ms a (-1) ≤ mapL ms b 1 := by
  induction ms generalizing a b with
  | nil => exact hab
  | cons m rest ih =>
      exact ih (fun m' hm' => h m' (List.mem_cons_of_mem m hm'))
        (m.map_cross (h m (List.mem_cons_self m rest)) hab)

/-! ## Span-list and interval utilities -/

theorem unionSpans_nil : unionSpans [] = ∅ := by
  ext p; simp [unionSpans]

theorem unionSpans_cons (sp : Span) (l : List Span) :
    unionSpans (sp :: l) = Set.Ico sp.from_ sp.to_ ∪ unionSpans l := by
  ext p
  simp only [unionSpans, Set.mem_union, Set.mem_Ico, Set.mem_setOf_eq, List.mem_cons]
  constructor
  · rintro ⟨x, hx | hx, h1, h2⟩
    · exact Or.inl ⟨hx ▸ h1, hx ▸ h2⟩
    · exact Or.inr ⟨x, hx, h1, h2⟩
  · rintro (⟨h1, h2⟩ | ⟨x, hx, h1, h2⟩)
    · exact ⟨sp, Or.inl rfl, h1, h2⟩
    · exact ⟨x, Or.inr hx, h1, h2⟩

theorem sorted_rel_all {sp : Span} {l : List Span} (hs : Sorted (sp :: l))
    (hw : WfSpans (sp :: l)) : ∀ sp2 ∈ l, sp.to_ ≤ sp2.from_ := by
  induction l generalizing sp with
  | nil => intro sp2 h; cases h
  | cons b rest ih =>
      intro sp2 h
      have hrel : sp.to_ ≤ b.from_ := (List.chain'_cons.mp hs).1
      rcases List.mem_cons.mp h with rfl | h'
      · exact hrel
      · have hb : Sorted (b :: rest) := (List.chain'_cons.mp hs).2
        have hwb : WfSpans (b :: rest) := fun x hx => hw x (List.mem_cons_of_mem sp hx)
        have h1 := ih hb hwb sp2 h'
        have h2 : b.from_ ≤ b.to_ := hw b (by simp)
        omega

theorem ico_merge_absorb {f t a b : Int} (U : Set Int) (hft : f ≤ t) (hat : a ≤ t)
    (hfb : f ≤ b) (hab : a ≤ b) :
    Set.Ico (min f a) (max t b) ∪ U = Set.Ico f t ∪ (Set.Ico a b ∪ U) := by
  ext p; by_cases hU : p ∈ U <;> simp [Set.mem_Ico, hU] <;> omega

theorem ico_merge_drop {f t a b : Int} (U : Set Int) (hfa : f ≤ a) (hbt : b ≤ t) :
    Set.Ico f t ∪ U = Set.Ico f t ∪ (Set.Ico a b ∪ U) := by
  ext p; by_cases hU : p ∈ U <;> simp [Set.mem_Ico, hU] <;> omega

theorem ico_merge_trunc {f t a b : Int} (U : Set Int) (hfa : f ≤ a) (hat : a ≤ t)
    (htb : t ≤ b) :
    Set.Ico f t ∪ (Set.Ico t b ∪ U) = Set.Ico f t ∪ (Set.Ico a b ∪ U) := by
  ext p; by_cases hU : p ∈ U <;> simp [Set.mem_Ico, hU] <;> omega

theorem ico_merge_splitL {f t a b : Int} (U : Set Int) (haf : a ≤ f) (hfb : f ≤ b)
    (hbt : b ≤ t) :
    Set.Ico a f ∪ (Set.Ico f t ∪ U) = Set.Ico f t ∪ (Set.Ico a b ∪ U) := by
  ext p; by_cases hU : p ∈ U <;> simp [Set.mem_Ico, hU] <;> omega

theorem ico_merge_splitR {f t a b : Int} (U : Set Int) (haf : a ≤ f) (hft : f ≤ t)
    (htb : t ≤ b) :
    Set.Ico a f ∪ (Set.Ico f t ∪ (Set.Ico t b ∪ U)) = Set.Ico f t ∪ (Set.Ico a b ∪ U) := by
  ext p; by_cases hU : p ∈ U <;> simp [Set.mem_Ico, hU] <;> omega

/-- Specification of the `while` loop of `insertIntoBlameMap`: on a sorted,
well-formed span list whose spans all end at or after `f` (and, when
differently attributed, start at or after `f`), it produces a sorted,
well-formed list covering exactly `[f, t)` plus the old spans; all produced
spans respect any lower bound below `f` respected by the input. -/
theorem insertConsume_spec (id : Nat) :
    ∀ (l : List Span) (f t : Int), f ≤ t → Sorted l → WfSpans l →
      (∀ sp ∈ l, f ≤ sp.to_) →
      (∀ sp ∈ l, sp.commit ≠ some id → f ≤ sp.from_) →
      Sorted (insertConsume id l f t) ∧
      WfSpans (insertConsume id l f t) ∧
      unionSpans (insertConsume id l f t) = Set.Ico f t ∪ unionSpans l ∧
      (∀ c : Int, c ≤ f → (∀ sp ∈ l, c ≤ sp.from_) →
        ∀ sp ∈ insertConsume id l f t, c ≤ sp.from_) := by
  intro l
  induction l with
  | nil =>
      intro f t hft _ _ _ _
      simp only [insertConsume]
      refine ⟨List.chain'_singleton _, ?_, ?_, ?_⟩
      · intro sp hsp
        rcases List.mem_singleton.mp hsp with rfl
        exact hft
      · rw [unionSpans_cons, unionSpans_nil]
      · intro c hcf _ sp hsp
        rcases List.mem_singleton.mp hsp with rfl
        exact hcf
  | cons next rest ih =>
      intro f t hft hs hw hend hdiff
      have hsrest : Sorted rest := hs.tail
      have hwrest : WfSpans rest := fun x hx => hw x (List.mem_cons_of_mem next hx)
      have hwnext : next.from_ ≤ next.to_ := hw next (List.mem_cons_self next rest)
      by_cases hc1 : next.commit = some id
      · by_cases hc2 : next.from_ > t
        · simp only [insertConsume, if_pos hc1, if_pos hc2]
          refine ⟨List.chain'_cons.mpr ⟨le_of_lt hc2, hs⟩, ?_, ?_, ?_⟩
          · intro sp hsp
            rcases List.mem_cons.mp hsp with rfl | hsp'
            · exact hft
            · exact hw sp hsp'
          · rw [unionSpans_cons]
          · intro c hcf hall sp hsp
            rcases List.mem_cons.mp hsp with rfl | hsp'
            · exact hcf
            · exact hall sp hsp'
        · simp only [insertConsume, if_pos hc1, if_neg hc2]
          have hend' : ∀ sp ∈ rest, min f next.from_ ≤ sp.to_ := fun sp hsp =>
            le_trans (min_le_left _ _) (hend sp (List.mem_cons_of_mem next hsp))
          have hdiff' : ∀ sp ∈ rest, sp.commit ≠ some id → min f next.from_ ≤ sp.from_ :=
            fun sp hsp h => le_trans (min_le_left _ _)
              (hdiff sp (List.mem_cons_of_mem next hsp) h)
          obtain ⟨S, W, U, B⟩ := ih (min f next.from_) (max t next.to_)
            (by omega) hsrest hwrest hend' hdiff'
          refine ⟨S, W, ?_, ?_⟩
          · rw [U, unionSpans_cons]
            exact ico_merge_absorb _ hft (by omega)
              (hend next (List.mem_cons_self next rest)) hwnext
          · intro c hcf hall sp hsp
            refine B c ?_ (fun x hx => hall x (List.mem_cons_of_mem next hx)) sp hsp
            exact le_min hcf (hall next (List.mem_cons_self next rest))
      · have hfa : f ≤ next.from_ := hdiff next (List.mem_cons_self next rest) hc1
        by_cases hc3 : next.from_ ≥ t
        · simp only [insertConsume, if_neg hc1, if_pos hc3]
          refine ⟨List.chain'_cons.mpr ⟨hc3, hs⟩, ?_, ?_, ?_⟩
          · intro sp hsp
            rcases List.mem_cons.mp hsp with rfl | hsp'
            · exact hft
            · exact hw sp hsp'
          · rw [unionSpans_cons]
          · intro c hcf hall sp hsp
            rcases List.mem_cons.mp hsp with rfl | hsp'
            · exact hcf
            · exact hall sp hsp'
        · by_cases hc4 : next.to_ > t
          · simp only [insertConsume, if_neg hc1, if_neg hc3, if_pos hc4]
            refine ⟨?_, ?_, ?_, ?_⟩
            · refine List.chain'_cons.mpr ⟨le_refl t, ?_⟩
              refine List.chain'_cons'.mpr ⟨(List.chain'_cons'.mp hs).1, (List.chain'_cons'.mp hs).2⟩
            · intro sp hsp
              rcases List.mem_cons.mp hsp with rfl | hsp'
              · exact hft
              · rcases List.mem_cons.mp hsp' with rfl | hsp''
                · exact le_of_lt hc4
                · exact hw sp (List.mem_cons_of_mem next hsp'')
            · rw [unionSpans_cons, unionSpans_cons, unionSpans_cons]
              dsimp only
              exact ico_merge_trunc _ hfa (by omega) (le_of_lt hc4)
            · intro c hcf hall sp hsp
              rcases List.mem_cons.mp hsp with rfl | hsp'
              · exact hcf
              · rcases List.mem_cons.mp hsp' with rfl | hsp''
                · exact le_trans hcf hft
                · exact hall sp (List.mem_cons_of_mem next hsp'')
          · simp only [insertConsume, if_neg hc1, if_neg hc3, if_neg hc4]
            have hend' : ∀ sp ∈ rest, f ≤ sp.to_ := fun sp hsp =>
              hend sp (List.mem_cons_of_mem next hsp)
            have hdiff' : ∀ sp ∈ rest, sp.commit ≠ some id → f ≤ sp.from_ := fun sp hsp h =>
              hdiff sp (List.mem_cons_of_mem next hsp) h
            obtain ⟨S, W, U, B⟩ := ih f t hft hsrest hwrest hend' hdiff'
            refine ⟨S, W, ?_, ?_⟩
            · rw [U, unionSpans_cons]
              exact ico_merge_drop _ hfa (by omega)
            · intro c hcf hall sp hsp
              exact B c hcf (fun x hx => hall x (List.mem_cons_of_mem next hx)) sp hsp

/-- Specification of the scanning loop of `insertIntoBlameMap`: on a
sorted, well-formed span list it produces a sorted, well-formed list
covering exactly `[f, t)` plus the old spans, and respects lower bounds. -/
theorem insertScan_spec (id : Nat) :
    ∀ (l : List Span) (f t : Int), f ≤ t → Sorted l → WfSpans l →
      Sorted (insertScan id l f t) ∧
      WfSpans (insertScan id l f t) ∧
      unionSpans (insertScan id l f t) = Set.Ico f t ∪ unionSpans l ∧
      (∀ c : Int, c ≤ f → (∀ sp ∈ l, c ≤ sp.from_) →
        ∀ sp ∈ insertScan id l f t, c ≤ sp.from_) := by
  intro l
  induction l with
  | nil =>
      intro f t hft _ _
      simp only [insertScan]
      refine ⟨List.chain'_singleton _, ?_, ?_, ?_⟩
      · intro sp hsp
        rcases List.mem_singleton.mp hsp with rfl
        exact hft
      · rw [unionSpans_cons, unionSpans_nil]
      · intro c hcf _ sp hsp
        rcases List.mem_singleton.mp hsp with rfl
        exact hcf
  | cons next rest ih =>
      intro f t hft hs hw
      have hsrest : Sorted rest := hs.tail
      have hwrest : WfSpans rest := fun x hx => hw x (List.mem_cons_of_mem next hx)
      have hwnext : next.from_ ≤ next.to_ := hw next (List.mem_cons_self next rest)
      have hall : ∀ sp ∈ rest, next.to_ ≤ sp.from_ := sorted_rel_all hs hw
      by_cases hc1 : next.commit = some id
      · by_cases hc2 : next.to_ ≥ f
        · simp only [insertScan, if_pos hc1, if_pos hc2]
          refine insertConsume_spec id (next :: rest) f t hft hs hw ?_ ?_
          · intro sp hsp
            rcases List.mem_cons.mp hsp with rfl | hsp'
            · exact hc2
            · have h1 := hall sp hsp'
              have h2 := hwrest sp hsp'
              omega
          · intro sp hsp hne
            rcases List.mem_cons.mp hsp with rfl | hsp'
            · exact absurd hc1 hne
            · have h1 := hall sp hsp'
              omega
        · simp only [insertScan, if_pos hc1, if_neg hc2]
          obtain ⟨S, W, U, B⟩ := ih f t hft hsrest hwrest
          have hbound : ∀ sp ∈ insertScan id rest f t, next.to_ ≤ sp.from_ :=
            B next.to_ (by omega) hall
          refine ⟨?_, ?_, ?_, ?_⟩
          · refine List.chain'_cons'.mpr ⟨?_, S⟩
            intro y hy
            exact hbound y (List.mem_of_mem_head? hy)
          · intro sp hsp
            rcases List.mem_cons.mp hsp with rfl | hsp'
            · exact hwnext
            · exact W sp hsp'
          · rw [unionSpans_cons, U, unionSpans_cons, Set.union_left_comm]
          · intro c hcf hall' sp hsp
            rcases List.mem_cons.mp hsp with rfl | hsp'
            · exact hall' _ (List.mem_cons_self _ _)
            · exact B c hcf (fun x hx => hall' x (List.mem_cons_of_mem _ hx)) sp hsp'
      · by_cases hc3 : next.to_ > f
        · by_cases hc4 : next.from_ < f
          · by_cases hc5 : next.to_ > t
            · have hcons : insertConsume id (next :: rest) f t
                  = ⟨f, t, some id⟩ :: ⟨t, next.to_, next.commit⟩ :: rest := by
                simp only [insertConsume, if_neg hc1, if_neg (show ¬(next.from_ ≥ t) by omega),
                  if_pos hc5]
              simp only [insertScan, if_neg hc1, if_pos hc3, if_pos hc4, if_pos hc5, hcons]
              refine ⟨?_, ?_, ?_, ?_⟩
              · refine List.chain'_cons.mpr ⟨le_refl f, ?_⟩
                refine List.chain'_cons.mpr ⟨le_refl t, ?_⟩
                refine List.chain'_cons'.mpr ⟨(List.chain'_cons'.mp hs).1, (List.chain'_cons'.mp hs).2⟩
              · intro sp hsp
                rcases List.mem_cons.mp hsp with rfl | hsp'
                · exact le_of_lt hc4
                rcases List.mem_cons.mp hsp' with rfl | hsp''
                · exact hft
                rcases List.mem_cons.mp hsp'' with rfl | hsp'''
                · exact le_of_lt hc5
                · exact hwrest sp hsp'''
              · rw [unionSpans_cons, unionSpans_cons, unionSpans_cons, unionSpans_cons]
                dsimp only
                exact ico_merge_splitR _ (le_of_lt hc4) hft (le_of_lt hc5)
              · intro c hcf hall' sp hsp
                have hca : c ≤ next.from_ := hall' next (List.mem_cons_self next rest)
                rcases List.mem_cons.mp hsp with rfl | hsp'
                · exact hca
                rcases List.mem_cons.mp hsp' with rfl | hsp''
                · exact hcf
                rcases List.mem_cons.mp hsp'' with rfl | hsp'''
                · exact le_trans hcf hft
                · exact hall' sp (List.mem_cons_of_mem next hsp''')
            · simp only [insertScan, if_neg hc1, if_pos hc3, if_pos hc4, if_neg hc5]
              have hrest_f : ∀ sp ∈ rest, f ≤ sp.from_ := by
                intro sp hsp
                have h1 := hall sp hsp
                omega
              obtain ⟨S, W, U, B⟩ := insertConsume_spec id rest f t hft hsrest hwrest
                (fun sp hsp => by
                  have h1 := hrest_f sp hsp
                  have h2 := hwrest sp hsp
                  omega)
                (fun sp hsp _ => hrest_f sp hsp)
              refine ⟨?_, ?_, ?_, ?_⟩
              · refine List.chain'_cons'.mpr ⟨?_, S⟩
                intro y hy
                exact B f (le_refl f) hrest_f y (List.mem_of_mem_head? hy)
              · intro sp hsp
                rcases List.mem_cons.mp hsp with rfl | hsp'
                · exact le_of_lt hc4
                · exact W sp hsp'
              · rw [unionSpans_cons, U, unionSpans_cons]
                dsimp only
                exact ico_merge_splitL _ (le_of_lt hc4) (le_of_lt hc3) (by omega)
              · intro c hcf hall' sp hsp
                rcases List.mem_cons.mp hsp with rfl | hsp'
                · exact hall' next (List.mem_cons_self next rest)
                · exact B c hcf (fun x hx => hall' x (List.mem_cons_of_mem next hx)) sp hsp'
          · simp only [insertScan, if_neg hc1, if_pos hc3, if_neg hc4]
            refine insertConsume_spec id (next :: rest) f t hft hs hw ?_ ?_
            · intro sp hsp
              rcases List.mem_cons.mp hsp with rfl | hsp'
              · exact le_of_lt hc3
              · have h1 := hall sp hsp'
                have h2 := hwrest sp hsp'
                omega
            · intro sp hsp _
              rcases List.mem_cons.mp hsp with rfl | hsp'
              · omega
              · have h1 := hall sp hsp'
                omega
        · simp only [insertScan, if_neg hc1, if_neg hc3]
          obtain ⟨S, W, U, B⟩ := ih f t hft hsrest hwrest
          have hbound : ∀ sp ∈ insertScan id rest f t, next.to_ ≤ sp.from_ :=
            B next.to_ (by omega) hall
          refine ⟨?_, ?_, ?_, ?_⟩
          · refine List.chain'_cons'.mpr ⟨?_, S⟩
            intro y hy
            exact hbound y (List.mem_of_mem_head? hy)
          · intro sp hsp
            rcases List.mem_cons.mp hsp with rfl | hsp'
            · exact hwnext
            · exact W sp hsp'
          · rw [unionSpans_cons, U, unionSpans_cons, Set.union_left_comm]
          · intro c hcf hall' sp hsp
            rcases List.mem_cons.mp hsp with rfl | hsp'
            · exact hall' _ (List.mem_cons_self _ _)
            · exact B c hcf (fun x hx => hall' x (List.mem_cons_of_mem _ hx)) sp hsp'

theorem unionI_nil : unionI [] = ∅ := by
  ext p; simp [unionI]

theorem unionI_cons (pr : Int × Int) (l : List (Int × Int)) :
    unionI (pr :: l) = Set.Ico pr.1 pr.2 ∪ unionI l := by
  ext p
  simp only [unionI, Set.mem_union, Set.mem_Ico, Set.mem_setOf_eq, List.mem_cons]
  constructor
  · rintro ⟨x, hx | hx, h1, h2⟩
    · exact Or.inl ⟨hx ▸ h1, hx ▸ h2⟩
    · exact Or.inr ⟨x, hx, h1, h2⟩
  · rintro (⟨h1, h2⟩ | ⟨x, hx, h1, h2⟩)
    · exact ⟨pr, Or.inl rfl, h1, h2⟩
    · exact ⟨x, Or.inr hx, h1, h2⟩

theorem unionI_append (a b : List (Int × Int)) :
    unionI (a ++ b) = unionI a ∪ unionI b := by
  induction a with
  | nil => rw [List.nil_append, unionI_nil, Set.empty_union]
  | cons pr rest ih => rw [List.cons_append, unionI_cons, unionI_cons, ih, Set.union_assoc]

theorem mem_unionI_map {l : List (Int × Int)} {F : Int × Int → Int × Int} {p : Int} :
    p ∈ unionI (l.map F) ↔ ∃ pr ∈ l, (F pr).1 ≤ p ∧ p < (F pr).2 := by
  constructor
  · rintro ⟨x, hx, h1, h2⟩
    obtain ⟨pr, hpr, rfl⟩ := List.mem_map.mp hx
    exact ⟨pr, hpr, h1, h2⟩
  · rintro ⟨pr, hpr, h1, h2⟩
    exact ⟨F pr, List.mem_map_of_mem F hpr, h1, h2⟩

/-- `insertIntoBlameMap` keeps the map sorted and well formed and adds
exactly `[f, t)` to its coverage. -/
theorem insertIntoBlameMap_spec (l : List Span) (f t : Int) (id : Nat)
    (hs : Sorted l) (hw : WfSpans l) :
    Sorted (insertIntoBlameMap l f t id) ∧ WfSpans (insertIntoBlameMap l f t id) ∧
    unionSpans (insertIntoBlameMap l f t id) = Set.Ico f t ∪ unionSpans l := by
  by_cases h : f ≥ t
  · rw [insertIntoBlameMap, if_pos h]
    refine ⟨hs, hw, ?_⟩
    rw [Set.Ico_eq_empty (by omega), Set.empty_union]
  · rw [insertIntoBlameMap, if_neg h]
    obtain ⟨S, W, U, _⟩ := insertScan_spec id l f t (by omega) hs hw
    exact ⟨S, W, U⟩

/-- The insertion loop of `updateBlameMap` keeps the map sorted and well
formed and adds exactly the (remapped) inserted ranges to its coverage. -/
theorem insertPhase_spec (id : Nat) :
    ∀ (ms : List StepMap) (res : List Span), Sorted res → WfSpans res →
      Sorted (insertPhase id res ms) ∧ WfSpans (insertPhase id res ms) ∧
      unionSpans (insertPhase id res ms)
        = unionSpans res ∪ unionI (phase2Intervals ms) := by
  intro ms
  induction ms with
  | nil =>
      intro res hs hw
      refine ⟨hs, hw, ?_⟩
      rw [show phase2Intervals [] = [] from rfl, unionI_nil, Set.union_empty]
      rfl
  | cons m rest ih =>
      intro res hs hw
      obtain ⟨S, W, U⟩ := insertIntoBlameMap_spec res
        (mapL rest m.start 1) (mapL rest (m.start + m.newSize) (-1)) id hs hw
      obtain ⟨S', W', U'⟩ := ih _ S W
      refine ⟨S', W', ?_⟩
      rw [show insertPhase id res (m :: rest)
          = insertPhase id (insertIntoBlameMap res
              (mapL rest m.start 1) (mapL rest (m.start + m.newSize) (-1)) id) rest from rfl] at *
      rw [U', U, show phase2Intervals (m :: rest)
          = (mapL rest m.start 1, mapL rest (m.start + m.newSize) (-1)) :: phase2Intervals rest
          from rfl, unionI_cons, Set.union_assoc, Set.union_left_comm]

/-- The survivor phase keeps the map sorted and well formed; all survivors
respect the right-mapped image of any lower bound on the input spans. -/
theorem survivorLoop_spec (ms : List StepMap) (hm : ∀ m ∈ ms, WfMap m) :
    ∀ (l : List Span), Sorted l → WfSpans l →
      Sorted (survivorLoop ms l) ∧ WfSpans (survivorLoop ms l) ∧
      (∀ x : Int, (∀ sp ∈ l, x ≤ sp.from_) →
        ∀ sp' ∈ survivorLoop ms l, mapL ms x 1 ≤ sp'.from_) := by
  intro l
  induction l with
  | nil =>
      intro _ _
      refine ⟨List.chain'_nil, fun sp hsp => absurd hsp (List.not_mem_nil sp), ?_⟩
      intro x _ sp hsp
      exact absurd hsp (List.not_mem_nil sp)
  | cons sp rest ih =>
      intro hs hw
      have hwsp : sp.from_ ≤ sp.to_ := hw sp (List.mem_cons_self sp rest)
      have hall : ∀ sp2 ∈ rest, sp.to_ ≤ sp2.from_ := sorted_rel_all hs hw
      obtain ⟨S, W, B⟩ := ih hs.tail (fun x hx => hw x (List.mem_cons_of_mem sp hx))
      by_cases h : mapL ms sp.from_ 1 < mapL ms sp.to_ (-1)
      · rw [show survivorLoop ms (sp :: rest)
            = ⟨mapL ms sp.from_ 1, mapL ms sp.to_ (-1), sp.commit⟩ :: survivorLoop ms rest
            from by simp only [survivorLoop, if_pos h]]
        refine ⟨?_, ?_, ?_⟩
        · refine List.chain'_cons'.mpr ⟨?_, S⟩
          intro y hy
          have h1 := B sp.to_ hall y (List.mem_of_mem_head? hy)
          have h2 := mapL_cross ms hm (le_refl sp.to_)
          dsimp only
          omega
        · intro x hx
          rcases List.mem_cons.mp hx with rfl | hx'
          · exact le_of_lt h
          · exact W x hx'
        · intro x hx sp' hsp'
          rcases List.mem_cons.mp hsp' with rfl | hsp''
          · exact mapL_mono ms hm (hx sp (List.mem_cons_self sp rest)) 1
          · refine B x ?_ sp' hsp''
            intro sp2 hsp2
            have h1 := hx sp (List.mem_cons_self sp rest)
            have h2 := hall sp2 hsp2
            omega
      · rw [show survivorLoop ms (sp :: rest) = survivorLoop ms rest
            from by simp only [survivorLoop, if_neg h]]
        refine ⟨S, W, ?_⟩
        intro x hx sp' hsp'
        refine B x ?_ sp' hsp'
        intro sp2 hsp2
        have h1 := hx sp (List.mem_cons_self sp rest)
        have h2 := hall sp2 hsp2
        omega

/-- The coverage of the survivor phase is the union of the remapped span
ranges. -/
theorem survivorLoop_union (ms : List StepMap) :
    ∀ l : List Span, unionSpans (survivorLoop ms l)
      = unionI (l.map fun sp => (mapL ms sp.from_ 1, mapL ms sp.to_ (-1))) := by
  intro l
  induction l with
  | nil => rw [show survivorLoop ms [] = [] from rfl, List.map_nil, unionI_nil, unionSpans_nil]
  | cons sp rest ih =>
      rw [List.map_cons, unionI_cons]
      by_cases h : mapL ms sp.from_ 1 < mapL ms sp.to_ (-1)
      · rw [show survivorLoop ms (sp :: rest)
            = ⟨mapL ms sp.from_ 1, mapL ms sp.to_ (-1), sp.commit⟩ :: survivorLoop ms rest
            from by simp only [survivorLoop, if_pos h], unionSpans_cons, ih]
      · rw [show survivorLoop ms (sp :: rest) = survivorLoop ms rest
            from by simp only [survivorLoop, if_neg h], ih,
          Set.Ico_eq_empty (by dsimp only; omega), Set.empty_union]

/-- One fragment's coverage step: if a family of intervals covers exactly
`[0, L)` and the fragment replaces a valid range of that document, then the
remapped family plus the fragment's output range covers exactly the new
document `[0, L + newSize - oldSize)`. -/
theorem cover_step (m : StepMap) (L : Int) (hw : WfMap m) (hb : m.start + m.oldSize ≤ L)
    (l : List (Int × Int)) (hU : unionI l = Set.Ico 0 L) :
    unionI (l.map fun pr => (m.map pr.1 1, m.map pr.2 (-1)))
        ∪ Set.Ico m.start (m.start + m.newSize)
      = Set.Ico 0 (L + (m.newSize - m.oldSize)) := by
  obtain ⟨hs0, ho0, hn0⟩ := hw
  ext p
  simp only [Set.mem_union, Set.mem_Ico]
  constructor
  · rintro (hmem | ⟨h1, h2⟩)
    · obtain ⟨pr, hpr, h1, h2⟩ := mem_unionI_map.mp hmem
      have hab : pr.1 < pr.2 := by
        by_contra hc
        have := StepMap.map_cross m ⟨hs0, ho0, hn0⟩ (show pr.2 ≤ pr.1 by omega)
        omega
      have hmema : pr.1 ∈ unionI l := ⟨pr, hpr, le_refl _, hab⟩
      have hmemb : pr.2 - 1 ∈ unionI l := ⟨pr, hpr, by omega, by omega⟩
      rw [hU] at hmema hmemb
      simp only [Set.mem_Ico] at hmema hmemb
      rcases StepMap.map_cases m pr.1 1 with ⟨hz, he⟩ | ⟨hz1, hz2, he | he⟩ | ⟨hz, he⟩ <;>
        rcases StepMap.map_cases m pr.2 (-1) with ⟨hz', he'⟩ | ⟨hz1', hz2', he' | he'⟩ | ⟨hz', he'⟩ <;>
        omega
    · omega
  · rintro ⟨h0, hL⟩
    by_cases hp1 : p < m.start
    · have hmem : p ∈ unionI l := by
        rw [hU]
        exact Set.mem_Ico.mpr ⟨h0, by omega⟩
      obtain ⟨pr, hpr, ha, hbp⟩ := hmem
      refine Or.inl (mem_unionI_map.mpr ⟨pr, hpr, ?_, ?_⟩)
      · rcases StepMap.map_cases m pr.1 1 with ⟨hz, he⟩ | ⟨hz1, hz2, he | he⟩ | ⟨hz, he⟩ <;> omega
      · rcases StepMap.map_cases m pr.2 (-1) with ⟨hz', he'⟩ | ⟨hz1', hz2', he' | he'⟩ | ⟨hz', he'⟩ <;>
          omega
    · by_cases hp2 : p < m.start + m.newSize
      · exact Or.inr ⟨by omega, hp2⟩
      · have hq : p - (m.newSize - m.oldSize) ∈ unionI l := by
          rw [hU]
          exact Set.mem_Ico.mpr ⟨by omega, by omega⟩
        obtain ⟨pr, hpr, ha, hbp⟩ := hq
        refine Or.inl (mem_unionI_map.mpr ⟨pr, hpr, ?_, ?_⟩)
        · rcases StepMap.map_cases m pr.1 1 with ⟨hz, he⟩ | ⟨hz1, hz2, he | he⟩ | ⟨hz, he⟩ <;> omega
        · rcases StepMap.map_cases m pr.2 (-1) with ⟨hz', he'⟩ | ⟨hz1', hz2', he' | he'⟩ | ⟨hz', he'⟩ <;>
            omega

theorem mapL_append_single (ms : List StepMap) (m : StepMap) (pos assoc : Int) :
    mapL (ms ++ [m]) pos assoc = m.map (mapL ms pos assoc) assoc := by
  simp [mapL, List.foldl_append]

theorem phase2Intervals_append_single (ms : List StepMap) (m : StepMap) :
    phase2Intervals (ms ++ [m])
      = ((phase2Intervals ms).map fun pr => (m.map pr.1 1, m.map pr.2 (-1)))
        ++ [(m.start, m.start + m.newSize)] := by
  induction ms with
  | nil => simp [phase2Intervals, mapL]
  | cons m0 rest ih =>
      rw [List.cons_append,
        show phase2Intervals (m0 :: (rest ++ [m]))
          = (mapL (rest ++ [m]) m0.start 1, mapL (rest ++ [m]) (m0.start + m0.newSize) (-1))
            :: phase2Intervals (rest ++ [m]) from rfl,
        ih, mapL_append_single, mapL_append_single,
        show phase2Intervals (m0 :: rest)
          = (mapL rest m0.start 1, mapL rest (m0.start + m0.newSize) (-1))
            :: phase2Intervals rest from rfl,
        List.map_cons, List.cons_append]

theorem deltaMaps_append_single (ms : List StepMap) (m : StepMap) :
    deltaMaps (ms ++ [m]) = deltaMaps ms + (m.newSize - m.oldSize) := by
  simp [deltaMaps]

theorem validMaps_append_single (ms : List StepMap) (m : StepMap) :
    ∀ L : Int, ValidMaps L (ms ++ [m]) ↔
      ValidMaps L ms ∧ WfMap m ∧ m.start + m.oldSize ≤ L + deltaMaps ms := by
  induction ms with
  | nil =>
      intro L
      show (WfMap m ∧ m.start + m.oldSize ≤ L) ∧ True ↔
        True ∧ WfMap m ∧ m.start + m.oldSize ≤ L + deltaMaps []
      rw [show deltaMaps [] = 0 from rfl, add_zero]
      tauto
  | cons m0 rest ih =>
      intro L
      rw [List.cons_append]
      show (WfMap m0 ∧ m0.start + m0.oldSize ≤ L) ∧
          ValidMaps (L + m0.newSize - m0.oldSize) (rest ++ [m]) ↔
        ((WfMap m0 ∧ m0.start + m0.oldSize ≤ L) ∧
          ValidMaps (L + m0.newSize - m0.oldSize) rest) ∧
        WfMap m ∧ m.start + m.oldSize ≤ L + deltaMaps (m0 :: rest)
      rw [ih (L + m0.newSize - m0.oldSize),
        show deltaMaps (m0 :: rest) = (m0.newSize - m0.oldSize) + deltaMaps rest from by
          simp [deltaMaps]]
      constructor
      · rintro ⟨ha, hb, hc, hd⟩
        exact ⟨⟨ha, hb⟩, hc, by omega⟩
      · rintro ⟨⟨ha, hb⟩, hc, hd⟩
        exact ⟨ha, hb, hc, by omega⟩

theorem validMaps_wf : ∀ (ms : List StepMap) (L : Int), ValidMaps L ms →
    ∀ m ∈ ms, WfMap m := by
  intro ms
  induction ms with
  | nil => intro L _ m hm; exact absurd hm (List.not_mem_nil m)
  | cons m0 rest ih =>
      intro L hv m hm
      rcases List.mem_cons.mp hm with rfl | hm'
      · exact hv.1.1
      · exact ih _ hv.2 m hm'

/-- The interval family produced by `updateBlameMap` — survivors plus
per-fragment inserted ranges — covers exactly the post-transform
document. -/
theorem cover_family (ms : List StepMap) :
    ∀ (l : List (Int × Int)) (L : Int), ValidMaps L ms → unionI l = Set.Ico 0 L →
      unionI (l.map fun pr => (mapL ms pr.1 1, mapL ms pr.2 (-1)))
          ∪ unionI (phase2Intervals ms)
        = Set.Ico 0 (L + deltaMaps ms) := by
  induction ms using List.reverseRecOn with
  | nil =>
      intro l L _ hU
      rw [show phase2Intervals [] = [] from rfl, unionI_nil, Set.union_empty,
        show deltaMaps [] = 0 from rfl, add_zero,
        show (l.map fun pr => (mapL [] pr.1 1, mapL [] pr.2 (-1))) = l from by
          simp [mapL], hU]
  | append_singleton ms m ih =>
      intro l L hv hU
      obtain ⟨hv1, hwm, hbm⟩ := (validMaps_append_single ms m L).mp hv
      have hmid := ih l L hv1 hU
      rw [phase2Intervals_append_single, unionI_append,
        show (l.map fun pr => (mapL (ms ++ [m]) pr.1 1, mapL (ms ++ [m]) pr.2 (-1)))
          = ((l.map fun pr => (mapL ms pr.1 1, mapL ms pr.2 (-1))).map
              fun pr => (m.map pr.1 1, m.map pr.2 (-1))) from by
          simp [mapL_append_single, List.map_map, Function.comp], ← Set.union_assoc,
        show unionI ((l.map fun pr => (mapL ms pr.1 1, mapL ms pr.2 (-1))).map
              (fun pr => (m.map pr.1 1, m.map pr.2 (-1))))
            ∪ unionI ((phase2Intervals ms).map fun pr => (m.map pr.1 1, m.map pr.2 (-1)))
          = unionI (((l.map fun pr => (mapL ms pr.1 1, mapL ms pr.2 (-1)))
              ++ phase2Intervals ms).map fun pr => (m.map pr.1 1, m.map pr.2 (-1))) from by
          rw [List.map_append, unionI_append],
        show unionI [(m.start, m.start + m.newSize)] = Set.Ico m.start (m.start + m.newSize) from by
          rw [unionI_cons, unionI_nil, Set.union_empty]]
      have hUmid : unionI ((l.map fun pr => (mapL ms pr.1 1, mapL ms pr.2 (-1)))
          ++ phase2Intervals ms) = Set.Ico 0 (L + deltaMaps ms) := by
        rw [unionI_append, hmid]
      rw [cover_step m (L + deltaMaps ms) hwm hbm _ hUmid, deltaMaps_append_single]
      rw [add_assoc]

theorem unionI_spans (M : List Span) :
    unionI (M.map fun sp => (sp.from_, sp.to_)) = unionSpans M := by
  induction M with
  | nil => rw [List.map_nil, unionI_nil, unionSpans_nil]
  | cons sp rest ih => rw [List.map_cons, unionI_cons, unionSpans_cons, ih]

/-- `updateBlameMap` preserves sortedness and well-formedness and maps a
full cover of the old document to a full cover of the new one. -/
theorem updateBlameMap_inv (M : List Span) (ms : List StepMap) (id : Nat) (L : Int)
    (hv : ValidMaps L ms) (hs : Sorted M) (hw : WfSpans M)
    (hU : unionSpans M = Set.Ico 0 L) :
    Sorted (updateBlameMap M ms id) ∧ WfSpans (updateBlameMap M ms id) ∧
    unionSpans (updateBlameMap M ms id) = Set.Ico 0 (L + deltaMaps ms) := by
  have hm : ∀ m' ∈ ms, WfMap m' := validMaps_wf ms L hv
  obtain ⟨S1, W1, _⟩ := survivorLoop_spec ms hm M hs hw
  obtain ⟨S2, W2, U2⟩ := insertPhase_spec id ms (survivorLoop ms M) S1 W1
  refine ⟨S2, W2, ?_⟩
  rw [show updateBlameMap M ms id = insertPhase id (survivorLoop ms M) ms from rfl,
    U2, survivorLoop_union,
    show (M.map fun sp => (mapL ms sp.from_ 1, mapL ms sp.to_ (-1)))
      = ((M.map fun sp => (sp.from_, sp.to_)).map
          fun pr => (mapL ms pr.1 1, mapL ms pr.2 (-1))) from by
      simp [List.map_map, Function.comp]]
  exact cover_family ms _ L hv (by rw [unionI_spans]; exact hU)

/-- A transform that applies successfully consists of valid fragments, and
changes the document length by their total delta. -/
theorem applySeq_valid : ∀ (steps : List RStep) (d d' : Doc),
    applySeq d steps = some d' →
    ValidMaps (d.length : Int) (steps.map RStep.getMap) ∧
    (d'.length : Int) = (d.length : Int) + deltaMaps (steps.map RStep.getMap) := by
  intro steps
  induction steps with
  | nil =>
      intro d d' h
      obtain rfl : d = d' := Option.some.inj h
      exact ⟨trivial, by rw [show deltaMaps (List.map RStep.getMap []) = 0 from rfl, add_zero]⟩
  | cons s rest ih =>
      intro d d' h
      cases happ : s.applyTo d with
      | none => rw [show applySeq d (s :: rest) = match s.applyTo d with
            | some d1 => applySeq d1 rest
            | none => none from rfl, happ] at h; exact absurd h (by simp)
      | some d1 =>
          have h' : applySeq d1 rest = some d' := by
            rw [show applySeq d (s :: rest) = match s.applyTo d with
              | some d1 => applySeq d1 rest
              | none => none from rfl, happ] at h
            exact h
          obtain ⟨V, Len⟩ := ih d1 d' h'
          have hbounds : 0 ≤ s.from_ ∧ s.from_ ≤ s.to_ ∧ s.to_ ≤ (d.length : Int) := by
            by_contra hc
            rw [RStep.applyTo, if_neg hc] at happ
            exact absurd happ (by simp)
          obtain ⟨hb0, hb1, hb2⟩ := hbounds
          have hd1len : (d1.length : Int)
              = (d.length : Int) + ((s.slice.length : Int) - (s.to_ - s.from_)) := by
            have heq : d1 = d.take s.from_.toNat ++ s.slice ++ d.drop s.to_.toNat := by
              rw [RStep.applyTo, if_pos ⟨hb0, hb1, hb2⟩] at happ
              exact (Option.some.inj happ).symm
            subst heq
            have hfa : (s.from_.toNat : Int) = s.from_ := Int.toNat_of_nonneg hb0
            have hta : (s.to_.toNat : Int) = s.to_ := Int.toNat_of_nonneg (by omega)
            have hfle : s.from_.toNat ≤ d.length := by omega
            have htle : s.to_.toNat ≤ d.length := by omega
            simp only [List.length_append, List.length_take, List.length_drop]
            push_cast
            omega
          constructor
          · show (WfMap (RStep.getMap s) ∧ (RStep.getMap s).start + (RStep.getMap s).oldSize
                ≤ (d.length : Int)) ∧
              ValidMaps ((d.length : Int) + (RStep.getMap s).newSize - (RStep.getMap s).oldSize)
                (rest.map RStep.getMap)
            refine ⟨⟨⟨hb0, by dsimp only [RStep.getMap]; omega,
              by dsimp only [RStep.getMap]; positivity⟩, by dsimp only [RStep.getMap]; omega⟩, ?_⟩
            have : (d.length : Int) + (RStep.getMap s).newSize - (RStep.getMap s).oldSize
                = (d1.length : Int) := by
              dsimp only [RStep.getMap]
              omega
            rw [this]
            exact V
          · rw [show deltaMaps ((s :: rest).map RStep.getMap)
                = ((s.slice.length : Int) - (s.to_ - s.from_)) + deltaMaps (rest.map RStep.getMap)
                from by simp [deltaMaps, RStep.getMap]]
            omega

/-- C1 counterexample: a reachable state (empty document; insert "ab";
commit; insert "x" at 1; commit; delete `[1, 2)`) whose attribution map is
`[0,1)↦0, [1,2)↦0` — two adjacent spans carrying the same attribution id,
so the claimed conjunction (which includes maximal coalescing) fails.  The
deletion brings two spans of commit 0 together and `updateBlameMap` never
re-coalesces surviving spans. -/
theorem c1_full_invariants_counterexample :
    Reach cexState ∧
    cexState.track.blameMap = [⟨0, 1, some 0⟩, ⟨1, 2, some 0⟩] ∧
    ¬ BlameInvFull cexState.track.blameMap (cexState.doc.length : Int) := by
  refine ⟨?_, by decide, fun h => ?_⟩
  case refine_2 =>
    have hc := h.2.2.2
    rw [show cexState.track.blameMap = [⟨0, 1, some 0⟩, ⟨1, 2, some 0⟩] from by decide] at hc
    exact (List.chain'_cons.mp hc).1 rfl
  exact Reach.tstep
    (Reach.cstep "c1" 0
      (Reach.tstep
        (Reach.cstep "c0" 0
          (Reach.tstep (Reach.init ([] : Doc)) (by decide)))
        (by decide)))
    (by decide)

/-! ## The mapping walk: fuel irrelevance, peeling, palindromes -/

theorem mapWalk_out (maps : List StepMap) (mirror : List (Nat × Nat)) (bound : Nat)
    (assoc : Int) (fuel i : Nat) (pos : Int) (del : DelInfo) (h : bound ≤ i) :
    mapWalk maps mirror bound assoc fuel i pos del = ⟨pos, del, none⟩ := by
  cases fuel with
  | zero => rfl
  | succ f =>
      simp only [mapWalk]
      rw [if_neg (by omega)]

theorem mapWalk_succ (maps : List StepMap) (mirror : List (Nat × Nat)) (bound : Nat)
    (assoc : Int) (fuel i : Nat) (pos : Int) (del : DelInfo) (h : i < bound) :
    mapWalk maps mirror bound assoc (fuel + 1) i pos del =
      match ((maps.getD i ⟨0, 0, 0⟩).mapResult pos assoc).recover with
      | some off =>
        match getMirrorL mirror i with
        | some corr =>
          if i < corr ∧ corr < bound then
            mapWalk maps mirror bound assoc fuel (corr + 1)
              ((maps.getD corr ⟨0, 0, 0⟩).recoverPos off) del
          else
            mapWalk maps mirror bound assoc fuel (i + 1)
              ((maps.getD i ⟨0, 0, 0⟩).mapResult pos assoc).pos
              (del.or ((maps.getD i ⟨0, 0, 0⟩).mapResult pos assoc).del)
        | none =>
          mapWalk maps mirror bound assoc fuel (i + 1)
            ((maps.getD i ⟨0, 0, 0⟩).mapResult pos assoc).pos
            (del.or ((maps.getD i ⟨0, 0, 0⟩).mapResult pos assoc).del)
      | none =>
        mapWalk maps mirror bound assoc fuel (i + 1)
          ((maps.getD i ⟨0, 0, 0⟩).mapResult pos assoc).pos
          (del.or ((maps.getD i ⟨0, 0, 0⟩).mapResult pos assoc).del) := by
  simp only [mapWalk, if_pos h]

theorem mapWalk_fuel_eq (maps : List StepMap) (mirror : List (Nat × Nat)) (bound : Nat)
    (assoc : Int) :
    ∀ (n fuel1 fuel2 i : Nat) (pos : Int) (del : DelInfo),
      bound - i ≤ n → bound - i ≤ fuel1 → bound - i ≤ fuel2 →
      mapWalk maps mirror bound assoc fuel1 i pos del
        = mapWalk maps mirror bound assoc fuel2 i pos del := by
  intro n
  induction n with
  | zero =>
      intro fuel1 fuel2 i pos del h1 _ _
      rw [mapWalk_out maps mirror bound assoc fuel1 i pos del (by omega),
        mapWalk_out maps mirror bound assoc fuel2 i pos del (by omega)]
  | succ n ih =>
      intro fuel1 fuel2 i pos del h1 h2 h3
      by_cases hib : i < bound
      · obtain ⟨f1, rfl⟩ : ∃ f, fuel1 = f + 1 := ⟨fuel1 - 1, by omega⟩
        obtain ⟨f2, rfl⟩ : ∃ f, fuel2 = f + 1 := ⟨fuel2 - 1, by omega⟩
        rw [mapWalk_succ maps mirror bound assoc f1 i pos del hib,
          mapWalk_succ maps mirror bound assoc f2 i pos del hib]
        cases hr : ((maps.getD i ⟨0, 0, 0⟩).mapResult pos assoc).recover with
        | none => exact ih f1 f2 (i + 1) _ _ (by omega) (by omega) (by omega)
        | some off =>
            cases hm : getMirrorL mirror i with
            | none => exact ih f1 f2 (i + 1) _ _ (by omega) (by omega) (by omega)
            | some corr =>
                dsimp only
                by_cases hc : i < corr ∧ corr < bound
                · rw [if_pos hc, if_pos hc]
                  exact ih f1 f2 (corr + 1) _ _ (by omega) (by omega) (by omega)
                · rw [if_neg hc, if_neg hc]
                  exact ih f1 f2 (i + 1) _ _ (by omega) (by omega) (by omega)
      · rw [mapWalk_out maps mirror bound assoc fuel1 i pos del (by omega),
          mapWalk_out maps mirror bound assoc fuel2 i pos del (by omega)]

theorem isPalin_mirror_bounds {maps : List StepMap} {mirror : List (Nat × Nat)} :
    ∀ {lo hi : Nat}, IsPalin maps mirror lo hi →
      ∀ k c, lo ≤ k → k < hi → getMirrorL mirror k = some c → lo ≤ c ∧ c < hi := by
  intro lo hi hpal
  induction hpal with
  | nil lo => intro k c h1 h2 _; omega
  | step lo hi m h2 hwo hwn hmlo hmhi hmir1 hmir2 hinner ih =>
      intro k c hk1 hk2 hmk
      by_cases hklo : k = lo
      · subst hklo
        rw [hmir1] at hmk
        obtain rfl := Option.some.inj hmk
        omega
      · by_cases hkhi : k = hi - 1
        · subst hkhi
          rw [hmir2] at hmk
          obtain rfl := Option.some.inj hmk
          omega
        · have := ih k c (by omega) (by omega) hmk
          omega

/-- Peeling the last fragment off a walk: when no fragment below the last
slot mirrors into it, walking `[i, b)` is walking `[i, b-1)` followed by one
step at `b-1`. -/
theorem mapWalk_peel (maps : List StepMap) (mirror : List (Nat × Nat)) (assoc : Int) (b : Nat) :
    ∀ (n fuel1 fuel2 i : Nat) (pos : Int) (del : DelInfo),
      b - i ≤ n → (b - 1) - i ≤ fuel2 → b - i ≤ fuel1 → i < b →
      (∀ k c, i ≤ k → k < b - 1 → getMirrorL mirror k = some c → c < b - 1) →
      mapWalk maps mirror b assoc fuel1 i pos del
        = mapWalk maps mirror b assoc 1 (b - 1)
            (mapWalk maps mirror (b - 1) assoc fuel2 i pos del).pos
            (mapWalk maps mirror (b - 1) assoc fuel2 i pos del).del := by
  intro n
  induction n with
  | zero => intro fuel1 fuel2 i pos del hn _ _ hib _; omega
  | succ n ih =>
      intro fuel1 fuel2 i pos del hn hf2 hf1 hib hjump
      by_cases hlast : i = b - 1
      · subst hlast
        rw [mapWalk_out maps mirror (b - 1) assoc fuel2 (b - 1) pos del (le_refl _)]
        exact mapWalk_fuel_eq maps mirror b assoc (b - (b - 1)) fuel1 1 (b - 1) pos del
          (le_refl _) (by omega) (by omega)
      · have hib' : i < b - 1 := by omega
        obtain ⟨f1, rfl⟩ : ∃ f, fuel1 = f + 1 := ⟨fuel1 - 1, by omega⟩
        obtain ⟨f2, rfl⟩ : ∃ f, fuel2 = f + 1 := ⟨fuel2 - 1, by omega⟩
        rw [mapWalk_succ maps mirror b assoc f1 i pos del hib,
          mapWalk_succ maps mirror (b - 1) assoc f2 i pos del hib']
        cases hr : ((maps.getD i ⟨0, 0, 0⟩).mapResult pos assoc).recover with
        | none =>
            dsimp only
            exact ih f1 f2 (i + 1) _ _ (by omega) (by omega) (by omega) (by omega)
              (fun k c h1 h2 h3 => hjump k c (by omega) h2 h3)
        | some off =>
            cases hm : getMirrorL mirror i with
            | none =>
                dsimp only
                exact ih f1 f2 (i + 1) _ _ (by omega) (by omega) (by omega) (by omega)
                  (fun k c h1 h2 h3 => hjump k c (by omega) h2 h3)
            | some corr =>
                dsimp only
                have hcorr : corr < b - 1 := hjump i corr (le_refl i) hib' hm
                by_cases hc : i < corr
                · rw [if_pos ⟨hc, by omega⟩, if_pos ⟨hc, by omega⟩]
                  exact ih f1 f2 (corr + 1) _ _ (by omega) (by omega) (by omega) (by omega)
                    (fun k c h1 h2 h3 => hjump k c (by omega) h2 h3)
                · rw [if_neg (by omega), if_neg (by omega)]
                  exact ih f1 f2 (i + 1) _ _ (by omega) (by omega) (by omega) (by omega)
                    (fun k c h1 h2 h3 => hjump k c (by omega) h2 h3)

theorem mapResult_recover_val (m : StepMap) (pos assoc : Int) {off : Int}
    (h : (m.mapResult pos assoc).recover = some off) : off = pos - m.start := by
  simp only [StepMap.mapResult] at h
  split_ifs at h <;> simp at h <;> omega

theorem bool_eq_false_of_iff {b : Bool} {P : Prop} (h : b = true ↔ P) (hp : ¬P) :
    b = false := by
  cases b
  · rfl
  · exact absurd (h.mp rfl) hp

/-- Full characterisation of `mapResult`: the position agrees with the
simple map, and the recovery value and deletion flags are determined by the
position's relation to the replaced range. -/
theorem mapResult_char (m : StepMap) (pos assoc : Int) :
    (m.mapResult pos assoc).pos = m.map pos assoc ∧
    ((m.mapResult pos assoc).recover = none ↔
      (pos < m.start ∨ m.start + m.oldSize < pos ∨
        pos = (if assoc < 0 then m.start else m.start + m.oldSize))) ∧
    ((m.mapResult pos assoc).del.across = true ↔
      (m.start ≤ pos ∧ pos ≤ m.start + m.oldSize ∧
        pos ≠ m.start ∧ pos ≠ m.start + m.oldSize)) ∧
    ((m.mapResult pos assoc).del.side = true ↔
      (m.start ≤ pos ∧ pos ≤ m.start + m.oldSize ∧
        (if assoc < 0 then pos ≠ m.start else pos ≠ m.start + m.oldSize))) := by
  simp only [StepMap.mapResult, StepMap.map]
  split_ifs <;> simp_all [DelInfo.none_] <;> omega

theorem map_lt_start (m : StepMap) (pos assoc : Int) (h : pos < m.start) :
    m.map pos assoc = pos := by
  simp only [StepMap.map]
  rw [if_pos (by omega)]

theorem map_gt_end (m : StepMap) (pos assoc : Int) (ho : 0 ≤ m.oldSize)
    (h : m.start + m.oldSize < pos) :
    m.map pos assoc = pos + (m.newSize - m.oldSize) := by
  simp only [StepMap.map]
  rw [if_neg (by omega), if_neg (by omega)]

theorem map_left_boundary (m : StepMap) (assoc : Int) (ho : 0 ≤ m.oldSize) (ha : assoc < 0) :
    m.map m.start assoc = m.start := by
  simp only [StepMap.map]
  split_ifs <;> omega

theorem map_right_boundary (m : StepMap) (assoc : Int) (ho : 0 ≤ m.oldSize)
    (ha : ¬assoc < 0) :
    m.map (m.start + m.oldSize) assoc = m.start + m.newSize := by
  simp only [StepMap.map]
  split_ifs <;> omega

/-- The fragment of a step followed by the fragment of its inverse cancel
exactly on any position that is not recovered, and flag no deletion of the
associated side nor across. -/
theorem mapResult_pq (m : StepMap) (pos assoc : Int) (ho : 0 ≤ m.oldSize)
    (hn : 0 ≤ m.newSize) (h : (m.mapResult pos assoc).recover = none) :
    ((invStepMap m).mapResult (m.mapResult pos assoc).pos assoc).pos = pos ∧
    (m.mapResult pos assoc).del.across = false ∧
    (m.mapResult pos assoc).del.side = false ∧
    ((invStepMap m).mapResult (m.mapResult pos assoc).pos assoc).del.across = false ∧
    ((invStepMap m).mapResult (m.mapResult pos assoc).pos assoc).del.side = false := by
  obtain ⟨hp1, hr1, ha1, hs1⟩ := mapResult_char m pos assoc
  have hcase := hr1.mp h
  obtain ⟨hp2, _, ha2, hs2⟩ := mapResult_char (invStepMap m) (m.mapResult pos assoc).pos assoc
  have hqs : (invStepMap m).start = m.start := rfl
  have hqo : (invStepMap m).oldSize = m.newSize := rfl
  have hqn : (invStepMap m).newSize = m.oldSize := rfl
  by_cases hassoc : assoc < 0
  · rw [if_pos hassoc] at hcase
    rcases hcase with hc | hc | hc
    · have hm1 : m.map pos assoc = pos := map_lt_start m pos assoc hc
      have hm2 : (invStepMap m).map pos assoc = pos :=
        map_lt_start (invStepMap m) pos assoc (by rw [hqs]; omega)
      refine ⟨by rw [hp2, hp1, hm1, hm2], ?_, ?_, ?_, ?_⟩
      · exact bool_eq_false_of_iff ha1 (by omega)
      · exact bool_eq_false_of_iff hs1 (by rw [if_pos hassoc]; omega)
      · exact bool_eq_false_of_iff ha2 (by rw [hp1, hm1, hqs, hqo]; omega)
      · exact bool_eq_false_of_iff hs2 (by rw [hp1, hm1, hqs, hqo, if_pos hassoc]; omega)
    · have hm1 : m.map pos assoc = pos + (m.newSize - m.oldSize) := map_gt_end m pos assoc ho hc
      have hm2 : (invStepMap m).map (pos + (m.newSize - m.oldSize)) assoc
          = pos + (m.newSize - m.oldSize) + (m.oldSize - m.newSize) := by
        rw [show pos + (m.newSize - m.oldSize) + (m.oldSize - m.newSize)
            = pos + (m.newSize - m.oldSize) + ((invStepMap m).newSize - (invStepMap m).oldSize)
            from by rw [hqo, hqn]]
        exact map_gt_end (invStepMap m) _ assoc (by rw [hqo]; omega) (by rw [hqs, hqo]; omega)
      refine ⟨by rw [hp2, hp1, hm1, hm2]; omega, ?_, ?_, ?_, ?_⟩
      · exact bool_eq_false_of_iff ha1 (by omega)
      · exact bool_eq_false_of_iff hs1 (by rw [if_pos hassoc]; omega)
      · exact bool_eq_false_of_iff ha2 (by rw [hp1, hm1, hqs, hqo]; omega)
      · exact bool_eq_false_of_iff hs2 (by rw [hp1, hm1, hqs, hqo, if_pos hassoc]; omega)
    · subst hc
      have hm1 : m.map m.start assoc = m.start := map_left_boundary m assoc ho hassoc
      have hm2 : (invStepMap m).map m.start assoc = m.start := by
        rw [show m.start = (invStepMap m).start from rfl]
        exact map_left_boundary (invStepMap m) assoc (by rw [hqo]; omega) hassoc
      refine ⟨by rw [hp2, hp1, hm1, hm2], ?_, ?_, ?_, ?_⟩
      · exact bool_eq_false_of_iff ha1 (by omega)
      · exact bool_eq_false_of_iff hs1 (by rw [if_pos hassoc]; omega)
      · exact bool_eq_false_of_iff ha2 (by rw [hp1, hm1, hqs, hqo]; omega)
      · exact bool_eq_false_of_iff hs2 (by rw [hp1, hm1, hqs, hqo, if_pos hassoc]; omega)
  · rw [if_neg hassoc] at hcase
    rcases hcase with hc | hc | hc
    · have hm1 : m.map pos assoc = pos := map_lt_start m pos assoc hc
      have hm2 : (invStepMap m).map pos assoc = pos :=
        map_lt_start (invStepMap m) pos assoc (by rw [hqs]; omega)
      refine ⟨by rw [hp2, hp1, hm1, hm2], ?_, ?_, ?_, ?_⟩
      · exact bool_eq_false_of_iff ha1 (by omega)
      · exact bool_eq_false_of_iff hs1 (by rw [if_neg hassoc]; omega)
      · exact bool_eq_false_of_iff ha2 (by rw [hp1, hm1, hqs, hqo]; omega)
      · exact bool_eq_false_of_iff hs2 (by rw [hp1, hm1, hqs, hqo, if_neg hassoc]; omega)
    · have hm1 : m.map pos assoc = pos + (m.newSize - m.oldSize) := map_gt_end m pos assoc ho hc
      have hm2 : (invStepMap m).map (pos + (m.newSize - m.oldSize)) assoc
          = pos + (m.newSize - m.oldSize) + (m.oldSize - m.newSize) := by
        rw [show pos + (m.newSize - m.oldSize) + (m.oldSize - m.newSize)
            = pos + (m.newSize - m.oldSize) + ((invStepMap m).newSize - (invStepMap m).oldSize)
            from by rw [hqo, hqn]]
        exact map_gt_end (invStepMap m) _ assoc (by rw [hqo]; omega) (by rw [hqs, hqo]; omega)
      refine ⟨by rw [hp2, hp1, hm1, hm2]; omega, ?_, ?_, ?_, ?_⟩
      · exact bool_eq_false_of_iff ha1 (by omega)
      · exact bool_eq_false_of_iff hs1 (by rw [if_neg hassoc]; omega)
      · exact bool_eq_false_of_iff ha2 (by rw [hp1, hm1, hqs, hqo]; omega)
      · exact bool_eq_false_of_iff hs2 (by rw [hp1, hm1, hqs, hqo, if_neg hassoc]; omega)
    · subst hc
      have hm1 : m.map (m.start + m.oldSize) assoc = m.start + m.newSize :=
        map_right_boundary m assoc ho hassoc
      have hm2 : (invStepMap m).map (m.start + m.newSize) assoc = m.start + m.oldSize := by
        rw [show m.start + m.newSize = (invStepMap m).start + (invStepMap m).oldSize from by
          rw [hqs, hqo]]
        rw [show m.start + m.oldSize = (invStepMap m).start + (invStepMap m).newSize from by
          rw [hqs, hqn]]
        exact map_right_boundary (invStepMap m) assoc (by rw [hqo]; omega) hassoc
      refine ⟨by rw [hp2, hp1, hm1, hm2], ?_, ?_, ?_, ?_⟩
      · exact bool_eq_false_of_iff ha1 (by omega)
      · exact bool_eq_false_of_iff hs1 (by rw [if_neg hassoc]; omega)
      · exact bool_eq_false_of_iff ha2 (by rw [hp1, hm1, hqs, hqo]; omega)
      · exact bool_eq_false_of_iff hs2 (by rw [hp1, hm1, hqs, hqo, if_neg hassoc]; omega)

/-- Walking a mirrored palindrome segment is the identity: the position is
returned unchanged, nothing is recovered at top level, and no
deleted-across or deleted-side flag is added. -/
theorem mapWalk_palin (maps : List StepMap) (mirror : List (Nat × Nat)) (assoc : Int) :
    ∀ {lo hi : Nat}, IsPalin maps mirror lo hi →
      ∀ (fuel : Nat) (pos : Int) (del : DelInfo), hi - lo ≤ fuel →
        ∃ del', mapWalk maps mirror hi assoc fuel lo pos del = ⟨pos, del', none⟩ ∧
          del'.across = del.across ∧ del'.side = del.side := by
  intro lo hi hpal
  induction hpal with
  | nil lo =>
      intro fuel pos del _
      exact ⟨del, mapWalk_out _ _ _ _ _ _ _ _ (le_refl lo), rfl, rfl⟩
  | step lo hi m h2 hwo hwn hmlo hmhi hmir1 hmir2 hinner ih =>
      intro fuel pos del hfuel
      obtain ⟨f, rfl⟩ : ∃ f, fuel = f + 1 := ⟨fuel - 1, by omega⟩
      have hgetlo : maps.getD lo ⟨0, 0, 0⟩ = m := by
        rw [List.getD_eq_getElem?_getD, hmlo, Option.getD_some]
      have hgethi : maps.getD (hi - 1) ⟨0, 0, 0⟩ = invStepMap m := by
        rw [List.getD_eq_getElem?_getD, hmhi, Option.getD_some]
      cases hr : (m.mapResult pos assoc).recover with
      | some off =>
          have hoff := mapResult_recover_val m pos assoc hr
          have hwalk : mapWalk maps mirror hi assoc (f + 1) lo pos del = ⟨pos, del, none⟩ := by
            rw [mapWalk_succ maps mirror hi assoc f lo pos del (by omega), hgetlo]
            simp only [hr, hmir1]
            rw [if_pos ⟨by omega, by omega⟩, hgethi,
              mapWalk_out maps mirror hi assoc f (hi - 1 + 1) _ del (by omega)]
            rw [show (invStepMap m).recoverPos off = pos from by
              simp only [StepMap.recoverPos, invStepMap]
              omega]
          exact ⟨del, hwalk, rfl, rfl⟩
      | none =>
          obtain ⟨hpq1, hpa, hps, hqa, hqs⟩ := mapResult_pq m pos assoc hwo hwn hr
          obtain ⟨del1, hinnerEq, hia, his⟩ :=
            ih f (m.mapResult pos assoc).pos (del.or (m.mapResult pos assoc).del) (by omega)
          have hjump : ∀ k c, lo + 1 ≤ k → k < hi - 1 →
              getMirrorL mirror k = some c → c < hi - 1 :=
            fun k c h1 h3 h4 => (isPalin_mirror_bounds hinner k c h1 h3 h4).2
          have e1 : mapWalk maps mirror hi assoc (f + 1) lo pos del
              = mapWalk maps mirror hi assoc f (lo + 1) (m.mapResult pos assoc).pos
                  (del.or (m.mapResult pos assoc).del) := by
            rw [mapWalk_succ maps mirror hi assoc f lo pos del (by omega), hgetlo]
            simp only [hr]
          have e2 := mapWalk_peel maps mirror assoc hi (hi - (lo + 1)) f f (lo + 1)
            (m.mapResult pos assoc).pos (del.or (m.mapResult pos assoc).del)
            (le_refl _) (by omega) (by omega) (by omega) hjump
          rw [hinnerEq] at e2
          have e4 : mapWalk maps mirror hi assoc 1 (hi - 1) (m.mapResult pos assoc).pos del1
              = ⟨((invStepMap m).mapResult (m.mapResult pos assoc).pos assoc).pos,
                  del1.or ((invStepMap m).mapResult (m.mapResult pos assoc).pos assoc).del,
                  none⟩ := by
            rw [mapWalk_succ maps mirror hi assoc 0 (hi - 1) _ del1 (by omega), hgethi]
            cases hr2 : ((invStepMap m).mapResult (m.mapResult pos assoc).pos assoc).recover with
            | some off2 =>
                simp only [hmir2]
                rw [if_neg (by omega)]
                exact mapWalk_out _ _ _ _ _ _ _ _ (by omega)
            | none =>
                exact mapWalk_out _ _ _ _ _ _ _ _ (by omega)
          refine ⟨del1.or ((invStepMap m).mapResult (m.mapResult pos assoc).pos assoc).del,
            ?_, ?_, ?_⟩
          · rw [e1, e2]
            dsimp only
            rw [e4, hpq1]
          · show (del1.or _).across = del.across
            have h1 : (del.or (m.mapResult pos assoc).del).across = del.across := by
              simp [DelInfo.or, hpa]
            simp [DelInfo.or, hqa, hia, h1, hpa]
          · show (del1.or _).side = del.side
            have h1 : (del.or (m.mapResult pos assoc).del).side = del.side := by
              simp [DelInfo.or, hps]
            simp [DelInfo.or, hqs, his, h1, hps]

theorem find_range_fst :
    ∀ (M n k : Nat), k < M → M ≤ n →
      ((List.range M).map fun j => ((n + j : Nat), (n - 1 - j : Nat))).find?
          (fun p => p.1 = (n + k) || p.2 = (n + k))
        = some (n + k, n - 1 - k) := by
  intro M
  induction M with
  | zero => intro n k hk _; omega
  | succ M ih =>
      intro n k hk hM
      rw [List.range_succ, List.map_append, List.find?_append]
      by_cases hkM : k < M
      · rw [ih n k hkM (by omega)]
        rfl
      · obtain rfl : k = M := by omega
        have hnone : ((List.range k).map fun j => ((n + j : Nat), (n - 1 - j : Nat))).find?
            (fun p => p.1 = (n + k) || p.2 = (n + k)) = none := by
          rw [List.find?_eq_none]
          intro x hx
          obtain ⟨j, hj, rfl⟩ := List.mem_map.mp hx
          have hjM := List.mem_range.mp hj
          simp only [Bool.or_eq_true, decide_eq_true_eq, not_or]
          omega
        rw [hnone]
        simp

theorem find_range_snd :
    ∀ (M n k : Nat), k < M → M ≤ n →
      ((List.range M).map fun j => ((n + j : Nat), (n - 1 - j : Nat))).find?
          (fun p => p.1 = (n - 1 - k) || p.2 = (n - 1 - k))
        = some (n + k, n - 1 - k) := by
  intro M
  induction M with
  | zero => intro n k hk _; omega
  | succ M ih =>
      intro n k hk hM
      rw [List.range_succ, List.map_append, List.find?_append]
      by_cases hkM : k < M
      · rw [ih n k hkM (by omega)]
        rfl
      · obtain rfl : k = M := by omega
        have hnone : ((List.range k).map fun j => ((n + j : Nat), (n - 1 - j : Nat))).find?
            (fun p => p.1 = (n - 1 - k) || p.2 = (n - 1 - k)) = none := by
          rw [List.find?_eq_none]
          intro x hx
          obtain ⟨j, hj, rfl⟩ := List.mem_map.mp hx
          have hjM := List.mem_range.mp hj
          simp only [Bool.or_eq_true, decide_eq_true_eq, not_or]
          omega
        rw [hnone]
        simp

theorem getMirror_range_fst (M n k : Nat) (hk : k < M) (hM : M ≤ n) :
    getMirrorL ((List.range M).map fun j => ((n + j : Nat), (n - 1 - j : Nat))) (n + k)
      = some (n - 1 - k) := by
  unfold getMirrorL
  rw [find_range_fst M n k hk hM]
  simp

theorem getMirror_range_snd (M n k : Nat) (hk : k < M) (hM : M ≤ n) :
    getMirrorL ((List.range M).map fun j => ((n + j : Nat), (n - 1 - j : Nat))) (n - 1 - k)
      = some (n + k) := by
  unfold getMirrorL
  rw [find_range_snd M n k hk hM]
  simp only
  rw [if_neg (by omega)]

/-- The pipeline built by the revert walk — the remaining original
fragments followed by the reversed inverse fragments, mirror-paired — is a
palindrome on the window the next slice will use. -/
theorem isPalin_segment (cm : List StepMap) (i : Nat)
    (hwf : ∀ m ∈ cm, 0 ≤ m.oldSize ∧ 0 ≤ m.newSize) :
    ∀ (d j : Nat), i ≤ j → j ≤ cm.length → cm.length - j = d →
      IsPalin (cm ++ ((cm.drop i).map invStepMap).reverse)
        ((List.range (cm.length - i)).map
          fun k => ((cm.length + k : Nat), (cm.length - 1 - k : Nat)))
        j (2 * cm.length - j) := by
  intro d
  induction d with
  | zero =>
      intro j hij hjn hd
      obtain rfl : j = cm.length := by omega
      rw [show 2 * cm.length - cm.length = cm.length from by omega]
      exact IsPalin.nil cm.length
  | succ d ihd =>
      intro j hij hjn hd
      have hjlt : j < cm.length := by omega
      have hmem : cm.get ⟨j, hjlt⟩ ∈ cm := List.get_mem cm j hjlt
      refine IsPalin.step j (2 * cm.length - j) (cm.get ⟨j, hjlt⟩) (by omega)
        (hwf _ hmem).1 (hwf _ hmem).2 ?_ ?_ ?_ ?_ ?_
      · rw [List.getElem?_append, if_pos hjlt]
        exact List.getElem?_eq_getElem hjlt
      · have hbaselen : ((cm.drop i).map invStepMap).length = cm.length - i := by simp
        rw [List.getElem?_append, if_neg (by omega)]
        rw [show 2 * cm.length - j - 1 - cm.length = cm.length - j - 1 from by omega,
          List.getElem?_reverse (by rw [hbaselen]; omega), hbaselen,
          show cm.length - i - 1 - (cm.length - j - 1) = j - i from by omega,
          List.getElem?_map, List.getElem?_drop,
          show i + (j - i) = j from by omega,
          List.getElem?_eq_getElem hjlt]
        rfl
      · have hmr := getMirror_range_snd (cm.length - i) cm.length (cm.length - 1 - j)
          (by omega) (by omega)
        rw [show cm.length - 1 - (cm.length - 1 - j) = j from by omega] at hmr
        rw [hmr]
        congr 1
        omega
      · have hmr := getMirror_range_fst (cm.length - i) cm.length (cm.length - 1 - j)
          (by omega) (by omega)
        rw [show cm.length + (cm.length - 1 - j) = 2 * cm.length - j - 1 from by omega] at hmr
        rw [hmr]
        congr 1
        omega
      · have hinner := ihd (j + 1) (by omega) (by omega) (by omega)
        rw [show 2 * cm.length - (j + 1) = 2 * cm.length - j - 1 from by omega] at hinner
        exact hinner

/-- Inverting a step that applied: the inverse applies to the result and
restores the original document, and its fragment is the inverse fragment. -/
theorem applyTo_invert {s : RStep} {d d' : Doc} (h : s.applyTo d = some d') :
    (s.invert d).applyTo d' = some d ∧ (s.invert d).getMap = invStepMap s.getMap := by
  have hbounds : 0 ≤ s.from_ ∧ s.from_ ≤ s.to_ ∧ s.to_ ≤ (d.length : Int) := by
    by_contra hc
    rw [RStep.applyTo, if_neg hc] at h
    exact absurd h (by simp)
  obtain ⟨hb0, hb1, hb2⟩ := hbounds
  have heq : d' = d.take s.from_.toNat ++ s.slice ++ d.drop s.to_.toNat := by
    rw [RStep.applyTo, if_pos ⟨hb0, hb1, hb2⟩] at h
    exact (Option.some.inj h).symm
  have hfa : (s.from_.toNat : Int) = s.from_ := Int.toNat_of_nonneg hb0
  have hta : (s.to_.toNat : Int) = s.to_ := Int.toNat_of_nonneg (by omega)
  have hka : ((s.to_ - s.from_).toNat : Int) = s.to_ - s.from_ := Int.toNat_of_nonneg (by omega)
  have hfle : s.from_.toNat ≤ d.length := by omega
  have htle : s.to_.toNat ≤ d.length := by omega
  have htakelen : (d.take s.from_.toNat).length = s.from_.toNat := by
    rw [List.length_take]
    omega
  have hdellen : ((d.drop s.from_.toNat).take (s.to_ - s.from_).toNat).length
      = (s.to_ - s.from_).toNat := by
    rw [List.length_take, List.length_drop]
    omega
  have hd'len : (d'.length : Int) = (d.length : Int) + (s.slice.length : Int)
      - (s.to_ - s.from_) := by
    rw [heq]
    simp only [List.length_append, List.length_take, List.length_drop]
    push_cast
    omega
  constructor
  · rw [RStep.applyTo, if_pos (by
      constructor
      · exact hb0
      constructor
      · dsimp only [RStep.invert]
        omega
      · dsimp only [RStep.invert]
        omega)]
    congr 1
    dsimp only [RStep.invert]
    have h1 : (s.from_ + (s.slice.length : Int)).toNat = s.from_.toNat + s.slice.length := by
      omega
    have htk : (d.take s.from_.toNat ++ s.slice ++ d.drop s.to_.toNat).take s.from_.toNat
        = d.take s.from_.toNat := by
      rw [List.append_assoc]
      exact List.take_left' htakelen
    have hdr : (d.take s.from_.toNat ++ s.slice ++ d.drop s.to_.toNat).drop
        (s.from_.toNat + s.slice.length) = d.drop s.to_.toNat :=
      List.drop_left' (by rw [List.length_append, htakelen])
    rw [h1, heq, htk, hdr]
    rw [← List.take_add,
      show s.from_.toNat + (s.to_ - s.from_).toNat = s.to_.toNat from by omega]
    exact List.take_append_drop _ d
  · dsimp only [RStep.invert, RStep.getMap, invStepMap]
    rw [StepMap.mk.injEq]
    refine ⟨rfl, by omega, ?_⟩
    rw [hdellen]
    omega

theorem applySeq_append (l1 : List RStep) :
    ∀ (d : Doc) (l2 : List RStep),
      applySeq d (l1 ++ l2) = (applySeq d l1).bind fun d1 => applySeq d1 l2 := by
  induction l1 with
  | nil => intro d l2; rfl
  | cons s rest ih =>
      intro d l2
      rw [List.cons_append]
      cases happ : s.applyTo d with
      | none =>
          rw [show applySeq d (s :: (rest ++ l2)) = match s.applyTo d with
            | some d1 => applySeq d1 (rest ++ l2)
            | none => none from rfl, happ]
          rw [show applySeq d (s :: rest) = match s.applyTo d with
            | some d1 => applySeq d1 rest
            | none => none from rfl, happ]
          rfl
      | some d1 =>
          rw [show applySeq d (s :: (rest ++ l2)) = match s.applyTo d with
            | some d1 => applySeq d1 (rest ++ l2)
            | none => none from rfl, happ]
          rw [show applySeq d (s :: rest) = match s.applyTo d with
            | some d1 => applySeq d1 rest
            | none => none from rfl, happ]
          exact ih d1 l2

theorem invertSeq_append (σ1 : List RStep) :
    ∀ (σ2 : List RStep) (d d1 : Doc), applySeq d σ1 = some d1 →
      invertSeq d (σ1 ++ σ2) = invertSeq d σ1 ++ invertSeq d1 σ2 := by
  induction σ1 with
  | nil =>
      intro σ2 d d1 h
      obtain rfl : d = d1 := Option.some.inj h
      rfl
  | cons s rest ih =>
      intro σ2 d d1 h
      cases happ : s.applyTo d with
      | none =>
          rw [show applySeq d (s :: rest) = match s.applyTo d with
            | some dx => applySeq dx rest
            | none => none from rfl, happ] at h
          exact absurd h (by simp)
      | some dx =>
          rw [show applySeq d (s :: rest) = match s.applyTo d with
            | some dy => applySeq dy rest
            | none => none from rfl, happ] at h
          rw [List.cons_append,
            show invertSeq d (s :: (rest ++ σ2))
              = s.invert d :: invertSeq ((s.applyTo d).getD d) (rest ++ σ2) from rfl,
            show invertSeq d (s :: rest)
              = s.invert d :: invertSeq ((s.applyTo d).getD d) rest from rfl,
            happ, Option.getD_some, List.cons_append, ih σ2 dx d1 h]

theorem invertSeq_length : ∀ (σ : List RStep) (d : Doc),
    (invertSeq d σ).length = σ.length := by
  intro σ
  induction σ with
  | nil => intro d; rfl
  | cons s rest ih =>
      intro d
      rw [show invertSeq d (s :: rest)
        = s.invert d :: invertSeq ((s.applyTo d).getD d) rest from rfl]
      rw [List.length_cons, List.length_cons, ih]

theorem applySeq_take_parts {σ : List RStep} {d0 : Doc} {i : Nat} {di1 : Doc}
    (hi : i < σ.length) (h : applySeq d0 (σ.take (i + 1)) = some di1) :
    ∃ di si, applySeq d0 (σ.take i) = some di ∧ σ[i]? = some si ∧
      si.applyTo di = some di1 := by
  rw [List.take_succ] at h
  rw [List.getElem?_eq_getElem hi] at h
  rw [show (some σ[i]).toList = [σ[i]] from rfl] at h
  rw [applySeq_append] at h
  cases htake : applySeq d0 (σ.take i) with
  | none => rw [htake] at h; exact absurd h (by simp)
  | some di =>
      rw [htake] at h
      simp only [Option.some_bind] at h
      cases happ : σ[i].applyTo di with
      | none =>
          rw [show applySeq di [σ[i]] = match σ[i].applyTo di with
            | some dx => applySeq dx []
            | none => none from rfl, happ] at h
          exact absurd h (by simp)
      | some dx =>
          rw [show applySeq di [σ[i]] = match σ[i].applyTo di with
            | some dy => applySeq dy []
            | none => none from rfl, happ] at h
          obtain rfl : dx = di1 := Option.some.inj h
          exact ⟨di, σ[i], rfl, List.getElem?_eq_getElem hi, happ⟩

theorem invertSeq_getElem :
    ∀ (σ : List RStep) (d0 : Doc) (i : Nat) (di : Doc) (si : RStep),
      σ[i]? = some si → applySeq d0 (σ.take i) = some di →
      (invertSeq d0 σ)[i]? = some (si.invert di) := by
  intro σ
  induction σ with
  | nil => intro d0 i di si h _; simp at h
  | cons s rest ih =>
      intro d0 i di si h htake
      cases i with
      | zero =>
          obtain rfl : s = si := by simpa using h
          obtain rfl : d0 = di := Option.some.inj htake
          rw [show invertSeq d0 (s :: rest)
            = s.invert d0 :: invertSeq ((s.applyTo d0).getD d0) rest from rfl]
          exact List.getElem?_cons_zero
      | succ i =>
          rw [List.take_succ_cons] at htake
          cases happ : s.applyTo d0 with
          | none =>
              rw [show applySeq d0 (s :: rest.take i) = match s.applyTo d0 with
                | some dx => applySeq dx (rest.take i)
                | none => none from rfl, happ] at htake
              exact absurd htake (by simp)
          | some dx =>
              rw [show applySeq d0 (s :: rest.take i) = match s.applyTo d0 with
                | some dy => applySeq dy (rest.take i)
                | none => none from rfl, happ] at htake
              rw [show invertSeq d0 (s :: rest)
                  = s.invert d0 :: invertSeq ((s.applyTo d0).getD d0) rest from rfl,
                happ, Option.getD_some]
              rw [List.getElem?_cons_succ]
              exact ih dx i di si (by simpa using h) htake

/-- Every step of a successfully applied sequence is a forward range
starting at a nonnegative position. -/
theorem applySeq_steps_bounds : ∀ (σ : List RStep) (d d' : Doc),
    applySeq d σ = some d' → ∀ s ∈ σ, 0 ≤ s.from_ ∧ s.from_ ≤ s.to_ := by
  intro σ
  induction σ with
  | nil => intro d d' _ s hs; exact absurd hs (List.not_mem_nil s)
  | cons a rest ih =>
      intro d d' h s hs
      cases happ : a.applyTo d with
      | none =>
          rw [show applySeq d (a :: rest) = match a.applyTo d with
            | some dx => applySeq dx rest
            | none => none from rfl, happ] at h
          exact absurd h (by simp)
      | some dx =>
          rw [show applySeq d (a :: rest) = match a.applyTo d with
            | some dy => applySeq dy rest
            | none => none from rfl, happ] at h
          rcases List.mem_cons.mp hs with rfl | hmem
          · by_contra hc
            rw [RStep.applyTo, if_neg (fun hcond => hc ⟨hcond.1, hcond.2.1⟩)] at happ
            exact Option.noConfusion happ
          · exact ih dx d' h s hmem

/-- The mapping fragments of a successfully applied sequence have
nonnegative sizes. -/
theorem applySeq_maps_wf (σ : List RStep) (d d' : Doc) (h : applySeq d σ = some d') :
    ∀ m ∈ σ.map RStep.getMap, 0 ≤ m.oldSize ∧ 0 ≤ m.newSize := by
  intro m hm
  obtain ⟨s, hs, rfl⟩ := List.mem_map.mp hm
  obtain ⟨h0, h1⟩ := applySeq_steps_bounds σ d d' h s hs
  dsimp only [RStep.getMap]
  exact ⟨by omega, Int.natCast_nonneg _⟩

/-- Single-unfold equation of the revert walk. -/
theorem revertGo_succ (csteps : List RStep) (i : Nat) (remap : Mapping) (tr : Tr) :
    revertGo csteps (i + 1) remap tr =
      match csteps[i]? with
      | none => revertGo csteps i remap tr
      | some st =>
        match st.mapThrough (remap.slice (i + 1)) with
        | none => revertGo csteps i remap tr
        | some remapped =>
          match tr.maybeStep remapped with
          | (tr', ok) =>
            if ok then revertGo csteps i (remap.appendMap remapped.getMap (some i)) tr'
            else revertGo csteps i remap tr := rfl

/-- Before any step has been processed, the pipeline shape is the plain
mapping over the commit's fragments. -/
theorem revertPipe_full (cm : List StepMap) (n : Nat) (hn : cm.length = n) :
    revertPipe cm n n = Mapping.ofMaps cm := by
  rw [revertPipe, Mapping.ofMaps, Mapping.mk.injEq]
  refine ⟨?_, ?_, rfl, by omega⟩
  · rw [show cm.drop n = [] from List.drop_eq_nil_of_le (by omega)]
    simp
  · rw [show n - n = 0 from by omega]
    simp

/-- The revert walk restores the original document: starting from the
document produced by the steps with index `< i` applied... processed in
reverse, every stored inverse remaps to itself through the palindromic
slice, applies successfully, and undoes one step, so the transaction built
by the walk ends at the original document. -/
theorem revertGo_restores (σ : List RStep) (d0 : Doc)
    (hwf : ∀ m ∈ σ.map RStep.getMap, 0 ≤ m.oldSize ∧ 0 ≤ m.newSize) :
    ∀ (i : Nat) (di : Doc) (tr : Tr), i ≤ σ.length →
      applySeq d0 (σ.take i) = some di → tr.doc = di →
      ((revertGo (invertSeq d0 σ) i (revertPipe (σ.map RStep.getMap) σ.length i) tr).2).doc
        = d0 := by
  intro i
  induction i with
  | zero =>
      intro di tr _ htake htr
      obtain rfl : d0 = di := Option.some.inj htake
      exact htr
  | succ i ih =>
      intro di1 tr hle htake htr
      have hi : i < σ.length := by omega
      obtain ⟨di, si, htakei, hσi, happ⟩ := applySeq_take_parts hi htake
      obtain ⟨hinvapp, hinvmap⟩ := applyTo_invert happ
      have hcst : (invertSeq d0 σ)[i]? = some (si.invert di) :=
        invertSeq_getElem σ d0 i di si hσi htakei
      have hlen : (σ.map RStep.getMap
            ++ (((σ.map RStep.getMap).drop (i + 1)).map invStepMap).reverse).length
          = 2 * σ.length - (i + 1) := by
        simp only [List.length_append, List.length_reverse, List.length_map, List.length_drop]
        omega
      have hpal := isPalin_segment (σ.map RStep.getMap) (i + 1) hwf
        ((σ.map RStep.getMap).length - (i + 1)) (i + 1) (le_refl _)
        (by simp only [List.length_map]; omega) rfl
      simp only [List.length_map] at hpal
      rw [← hlen] at hpal
      obtain ⟨delF, hF, hFa, hFs⟩ := mapWalk_palin _ _ 1 hpal
        (σ.map RStep.getMap
          ++ (((σ.map RStep.getMap).drop (i + 1)).map invStepMap).reverse).length
        (si.invert di).from_ DelInfo.none_ (Nat.sub_le _ _)
      obtain ⟨delT, hT, hTa, hTs⟩ := mapWalk_palin _ _ (-1) hpal
        (σ.map RStep.getMap
          ++ (((σ.map RStep.getMap).drop (i + 1)).map invStepMap).reverse).length
        (si.invert di).to_ DelInfo.none_ (Nat.sub_le _ _)
      have hFa' : delF.across = false := hFa.trans rfl
      have hTa' : delT.across = false := hTa.trans rfl
      have hmax : (si.invert di).from_ ≤ (si.invert di).to_ := by
        dsimp only [RStep.invert]
        omega
      have hmt : (si.invert di).mapThrough
          ((revertPipe (σ.map RStep.getMap) σ.length (i + 1)).slice (i + 1))
          = some (si.invert di) := by
        simp only [RStep.mapThrough, Mapping.mapResult, Mapping.slice, revertPipe]
        rw [hF, hT]
        dsimp only
        rw [hFa', hTa', Bool.false_and, if_neg Bool.false_ne_true, max_eq_right hmax]
      have hms : tr.maybeStep (si.invert di)
          = (⟨di, tr.steps ++ [si.invert di]⟩, true) := by
        simp only [Tr.maybeStep, htr, hinvapp]
      have hdropi : (σ.map RStep.getMap).drop i
          = si.getMap :: (σ.map RStep.getMap).drop (i + 1) := by
        have hlt : i < (σ.map RStep.getMap).length := by
          rw [List.length_map]
          exact hi
        have h1 : (σ.map RStep.getMap)[i]? = some si.getMap := by
          rw [List.getElem?_map, hσi]
          rfl
        rw [List.drop_eq_getElem_cons hlt]
        congr 1
        exact Option.some.inj ((List.getElem?_eq_getElem hlt).symm.trans h1)
      have hRi : (revertPipe (σ.map RStep.getMap) σ.length (i + 1)).appendMap
          (si.invert di).getMap (some i) = revertPipe (σ.map RStep.getMap) σ.length i := by
        rw [hinvmap, revertPipe, revertPipe, Mapping.appendMap]
        dsimp only
        rw [Mapping.mk.injEq]
        refine ⟨?_, ?_, rfl, by
          simp only [List.length_append, List.length_reverse, List.length_map,
            List.length_drop]
          omega⟩
        · rw [List.append_assoc]
          congr 1
          rw [hdropi, List.map_cons, List.reverse_cons]
        · rw [show σ.length - i = (σ.length - (i + 1)) + 1 from by omega,
            List.range_succ, List.map_append]
          congr 1
          simp only [List.map_cons, List.map_nil, List.cons.injEq, and_true, Prod.mk.injEq,
            List.length_append, List.length_reverse, List.length_map, List.length_drop]
          exact ⟨trivial, by omega⟩
      rw [revertGo_succ, hcst]
      dsimp only
      rw [hmt]
      dsimp only
      rw [hms]
      dsimp only
      rw [if_pos rfl, hRi]
      exact ih di ⟨di, tr.steps ++ [si.invert di]⟩ (by omega) htakei rfl

/-- Across a run of document-changing transactions with no commit, the
document advances by the concatenated steps, the commit history is
untouched, and the pending buffers accumulate exactly the inverted steps
and the step maps of the run. -/
theorem edTransforms_accum : ∀ (tfs : List (List RStep)) (S : EdState),
    TransformsOK S.doc tfs →
    ∃ dn, applySeq S.doc tfs.join = some dn ∧
      (edTransforms S tfs).doc = dn ∧
      (edTransforms S tfs).track.commits = S.track.commits ∧
      (edTransforms S tfs).track.uncommittedSteps
        = S.track.uncommittedSteps ++ invertSeq S.doc tfs.join ∧
      (edTransforms S tfs).track.uncommittedMaps
        = S.track.uncommittedMaps ++ (tfs.join).map RStep.getMap := by
  intro tfs
  induction tfs with
  | nil =>
      intro S _
      exact ⟨S.doc, rfl, rfl, rfl, by simp [invertSeq, edTransforms],
        by simp [edTransforms]⟩
  | cons tf rest ih =>
      intro S hok
      obtain ⟨d1, happ1, hokrest⟩ := hok
      have hEd : (edTransform S tf).doc = d1 := by
        rw [edTransform]
        dsimp only
        rw [happ1]
        rfl
      obtain ⟨dn, happr, hdoc, hcomm, hsteps, hmaps⟩ := ih (edTransform S tf)
        (by rw [hEd]; exact hokrest)
      rw [hEd] at happr hsteps
      refine ⟨dn, ?_, hdoc, ?_, ?_, ?_⟩
      · rw [show (tf :: rest).join = tf ++ rest.join from rfl,
          applySeq_append, happ1, Option.some_bind]
        exact happr
      · rw [show edTransforms S (tf :: rest) = edTransforms (edTransform S tf) rest from rfl,
          hcomm]
        rfl
      · rw [show edTransforms S (tf :: rest) = edTransforms (edTransform S tf) rest from rfl,
          hsteps, show (tf :: rest).join = tf ++ rest.join from rfl,
          invertSeq_append tf rest.join S.doc d1 happ1]
        rw [show (edTransform S tf).track.uncommittedSteps
          = S.track.uncommittedSteps ++ invertSeq S.doc tf from rfl, List.append_assoc]
      · rw [show edTransforms S (tf :: rest) = edTransforms (edTransform S tf) rest from rfl,
          hmaps, show (tf :: rest).join = tf ++ rest.join from rfl, List.map_append]
        rw [show (edTransform S tf).track.uncommittedMaps
          = S.track.uncommittedMaps ++ tf.map RStep.getMap from rfl, List.append_assoc]

/-- C2: reverting a freshly made commit restores the document.  From a
History State with empty pending buffers, apply any non-empty run of
document-changing transactions that the document admits, commit it, and
call `revertCommit` on the resulting commit (located in the history at the
expected index): the command accepts, and the transaction it builds ends at
the original document. -/
theorem c2_revert_round_trip (S0 : EdState) (tfs : List (List RStep))
    (msg : String) (time : Int)
    (hpend : S0.track.uncommittedSteps = [])
    (hpendm : S0.track.uncommittedMaps = [])
    (hok : TransformsOK S0.doc tfs)
    (hne : tfs.join ≠ [])
    (hidx : ((edTransforms S0 tfs).track.applyCommit msg time).commits.indexOf?
        ⟨msg, time, invertSeq S0.doc tfs.join, (tfs.join).map RStep.getMap, false⟩
      = some S0.track.commits.length) :
    ∃ tr, revertCommit
        ⟨(edTransforms S0 tfs).doc, (edTransforms S0 tfs).track.applyCommit msg time⟩
        ⟨msg, time, invertSeq S0.doc tfs.join, (tfs.join).map RStep.getMap, false⟩
      = (true, some tr) ∧ tr.doc = S0.doc := by
  obtain ⟨dn, happ, hdoc, hcomm, hsteps, hmaps⟩ := edTransforms_accum tfs S0 hok
  rw [hpend, List.nil_append] at hsteps
  rw [hpendm, List.nil_append] at hmaps
  have hstepsne : (edTransforms S0 tfs).track.uncommittedSteps ≠ [] := by
    rw [hsteps]
    intro hh
    apply hne
    have hl := invertSeq_length tfs.join S0.doc
    rw [hh] at hl
    exact List.length_eq_zero.mp hl.symm
  have hcommit : (edTransforms S0 tfs).track.applyCommit msg time
      = ⟨(edTransforms S0 tfs).track.blameMap,
         S0.track.commits ++ [⟨msg, time, invertSeq S0.doc tfs.join,
           (tfs.join).map RStep.getMap, false⟩], [], []⟩ := by
    rw [TrackState.applyCommit, if_neg hstepsne, hsteps, hmaps, hcomm]
  rw [hcommit] at hidx
  have hrc : revertCommit
      ⟨(edTransforms S0 tfs).doc, (edTransforms S0 tfs).track.applyCommit msg time⟩
      ⟨msg, time, invertSeq S0.doc tfs.join, (tfs.join).map RStep.getMap, false⟩
    = (true, some ((revertGo (invertSeq S0.doc tfs.join) (invertSeq S0.doc tfs.join).length
        (Mapping.ofMaps ((tfs.join).map RStep.getMap))
        ⟨(edTransforms S0 tfs).doc, []⟩).2)) := by
    rw [hcommit]
    simp only [revertCommit]
    rw [hidx]
    dsimp only
    rw [if_neg (fun h => h rfl), List.drop_left]
    rw [show concatCommitMaps [(⟨msg, time, invertSeq S0.doc tfs.join,
        (tfs.join).map RStep.getMap, false⟩ : Commit)]
      = [] ++ (tfs.join).map RStep.getMap from rfl, List.nil_append]
  refine ⟨_, hrc, ?_⟩
  have hwfm := applySeq_maps_wf tfs.join S0.doc dn happ
  have htake : applySeq S0.doc (tfs.join.take tfs.join.length) = some dn := by
    rw [List.take_length]
    exact happ
  have hres := revertGo_restores tfs.join S0.doc hwfm tfs.join.length dn
    ⟨(edTransforms S0 tfs).doc, []⟩ (le_refl _) htake hdoc
  rw [revertPipe_full ((tfs.join).map RStep.getMap) tfs.join.length
    (List.length_map _ _)] at hres
  rw [invertSeq_length tfs.join S0.doc]
  exact hres

/-- Witness for C2 at a concrete run: document "ab", one transaction
appending "c" at the end, committed as "m" and reverted. -/
theorem c2_revert_round_trip_witness :
    ∃ tr, revertCommit
        ⟨(edTransforms ⟨['a', 'b'], ⟨[⟨0, 2, none⟩], [], [], []⟩⟩ [[⟨2, 2, ['c']⟩]]).doc,
         (edTransforms ⟨['a', 'b'], ⟨[⟨0, 2, none⟩], [], [], []⟩⟩
             [[⟨2, 2, ['c']⟩]]).track.applyCommit "m" 0⟩
        ⟨"m", 0, invertSeq ['a', 'b'] ([[⟨2, 2, ['c']⟩]] : List (List RStep)).join,
         (([[⟨2, 2, ['c']⟩]] : List (List RStep)).join).map RStep.getMap, false⟩
      = (true, some tr) ∧ tr.doc = ['a', 'b'] :=
  c2_revert_round_trip ⟨['a', 'b'], ⟨[⟨0, 2, none⟩], [], [], []⟩⟩ [[⟨2, 2, ['c']⟩]] "m" 0
    rfl rfl ⟨['a', 'b', 'c'], by decide, trivial⟩ (by decide) (by decide)

/-- C1 amended: for every reachable History State, the attribution map's
spans are sorted by `from`, pairwise non-overlapping, and their union is
exactly `[0, documentLength)`.  (The original claim's fourth conjunct —
that no two adjacent spans carry the same attribution — fails on the code:
see the counterexample.) -/
theorem c1_blame_map_invariants_amended (S : EdState) (h : Reach S) :
    Sorted S.track.blameMap ∧ WfSpans S.track.blameMap ∧
    unionSpans S.track.blameMap = Set.Ico 0 (S.doc.length : Int) := by
  induction h with
  | init d =>
      refine ⟨List.chain'_singleton _, ?_, ?_⟩
      · intro sp hsp
        rcases List.mem_singleton.mp hsp with rfl
        exact Int.natCast_nonneg _
      · rw [show (⟨d, ⟨[⟨0, (d.length : Int), none⟩], [], [], []⟩⟩ : EdState).track.blameMap
            = [⟨0, (d.length : Int), none⟩] from rfl, unionSpans_cons, unionSpans_nil,
          Set.union_empty]
  | @tstep S0 steps d' hR happ ih =>
      obtain ⟨hs, hw, hU⟩ := ih
      obtain ⟨V, Len⟩ := applySeq_valid _ _ _ happ
      obtain ⟨S', W', U'⟩ := updateBlameMap_inv S0.track.blameMap (steps.map RStep.getMap)
        S0.track.commits.length _ V hs hw hU
      refine ⟨S', W', ?_⟩
      show unionSpans (updateBlameMap S0.track.blameMap (steps.map RStep.getMap)
        S0.track.commits.length) = Set.Ico 0 ((d'.length : Int))
      rw [Len]
      exact U'
  | @cstep S0 msg time hR ih =>
      obtain ⟨hs, hw, hU⟩ := ih
      have hbl : (S0.track.applyCommit msg time).blameMap = S0.track.blameMap := by
        rw [TrackState.applyCommit]
        split_ifs <;> rfl
      refine ⟨?_, ?_, ?_⟩
      · show Sorted (S0.track.applyCommit msg time).blameMap
        rw [hbl]; exact hs
      · show WfSpans (S0.track.applyCommit msg time).blameMap
        rw [hbl]; exact hw
      · show unionSpans (S0.track.applyCommit msg time).blameMap
          = Set.Ico 0 ((S0.doc.length : Int))
        rw [hbl]; exact hU

/-- Witness for amended C1: the initial state on document "ab". -/
theorem c1_blame_map_invariants_amended_witness :
    Sorted (⟨['a', 'b'],
        ⟨[⟨0, ((['a', 'b'] : Doc).length : Int), none⟩], [], [], []⟩⟩ : EdState).track.blameMap ∧
    WfSpans (⟨['a', 'b'],
        ⟨[⟨0, ((['a', 'b'] : Doc).length : Int), none⟩], [], [], []⟩⟩ : EdState).track.blameMap ∧
    unionSpans (⟨['a', 'b'],
        ⟨[⟨0, ((['a', 'b'] : Doc).length : Int), none⟩], [], [], []⟩⟩ : EdState).track.blameMap
      = Set.Ico 0 (((['a', 'b'] : Doc).length : Int)) :=
  c1_blame_map_invariants_amended _ (Reach.init ['a', 'b'])

/-- The commit list is untouched by a run of edits. -/
theorem edTransforms_commits (S : EdState) (tfs : List (List RStep)) :
    (edTransforms S tfs).track.commits = S.track.commits := by
  induction tfs generalizing S with
  | nil => rfl
  | cons tf rest ih =>
      rw [edTransforms, ih]
      rfl

/-- C4: every edit tags the spans it creates with the prospective id
`commits.length` and leaves `commits` unchanged; across a run of edits with
no commit in between that id stays equal to the initial `commits.length`;
and committing a non-empty pending buffer afterwards appends the new commit
exactly at that index. -/
theorem c4_commit_id_correct (S : EdState) (tfs : List (List RStep))
    (msg : String) (time : Int) :
    (∀ (ts : TrackState) (d : Doc) (steps : List RStep),
        (ts.applyTransform d steps).blameMap
          = updateBlameMap ts.blameMap (steps.map RStep.getMap) ts.commits.length ∧
        (ts.applyTransform d steps).commits = ts.commits) ∧
    (edTransforms S tfs).track.commits = S.track.commits ∧
    ((edTransforms S tfs).track.uncommittedSteps ≠ [] →
      ((edTransforms S tfs).track.applyCommit msg time).commits.length
          = S.track.commits.length + 1 ∧
      ((edTransforms S tfs).track.applyCommit msg time).commits[S.track.commits.length]?
        = some ⟨msg, time, (edTransforms S tfs).track.uncommittedSteps,
                (edTransforms S tfs).track.uncommittedMaps, false⟩) := by
  refine ⟨fun ts d steps => ⟨rfl, rfl⟩, edTransforms_commits S tfs, fun hne => ?_⟩
  rw [TrackState.applyCommit, if_neg hne]
  constructor
  · simp [edTransforms_commits S tfs]
  · rw [show ((edTransforms S tfs).track.commits
        ++ [⟨msg, time, (edTransforms S tfs).track.uncommittedSteps,
             (edTransforms S tfs).track.uncommittedMaps, false⟩])[S.track.commits.length]?
      = ((edTransforms S tfs).track.commits
        ++ [⟨msg, time, (edTransforms S tfs).track.uncommittedSteps,
             (edTransforms S tfs).track.uncommittedMaps, false⟩])[(edTransforms S tfs).track.commits.length]?
      from by rw [edTransforms_commits S tfs]]
    exact List.getElem?_concat_length _ _

/-- Witness for C4: a single insert on document "ab", then a commit; the
new commit lands at index 0, the prospective id used by the edit. -/
theorem c4_commit_id_correct_witness :
    ((edTransforms ⟨['a', 'b'], ⟨[⟨0, 2, none⟩], [], [], []⟩⟩
        [[⟨2, 2, ['c']⟩]]).track.applyCommit "m" 0).commits.length = 0 + 1 ∧
    ((edTransforms ⟨['a', 'b'], ⟨[⟨0, 2, none⟩], [], [], []⟩⟩
        [[⟨2, 2, ['c']⟩]]).track.applyCommit "m" 0).commits[0]?
      = some ⟨"m", 0,
          (edTransforms ⟨['a', 'b'], ⟨[⟨0, 2, none⟩], [], [], []⟩⟩ [[⟨2, 2, ['c']⟩]]).track.uncommittedSteps,
          (edTransforms ⟨['a', 'b'], ⟨[⟨0, 2, none⟩], [], [], []⟩⟩ [[⟨2, 2, ['c']⟩]]).track.uncommittedMaps,
          false⟩ :=
  (c4_commit_id_correct ⟨['a', 'b'], ⟨[⟨0, 2, none⟩], [], [], []⟩⟩
    [[⟨2, 2, ['c']⟩]] "m" 0).2.2 (by decide)

/-- C5: `revertCommit` rejects — returning `false` and producing no
transaction, so the History State (which the function never writes) is left
unchanged — exactly when the target commit is not found in the state's
commit list or the pending (uncommitted) buffer is non-empty; the function
is total, so no exception is raised.  (JavaScript `indexOf` compares
commits by object identity; the embedding's `indexOf?` uses structural
equality.) -/
theorem c5_revert_rejection (S : EdState) (c : Commit) :
    ((revertCommit S c).1 = false ↔
      (S.track.commits.indexOf? c = none ∨ S.track.uncommittedSteps ≠ [])) ∧
    ((revertCommit S c).1 = false → revertCommit S c = (false, none)) := by
  unfold revertCommit
  cases h : S.track.commits.indexOf? c with
  | none => simp
  | some index =>
    by_cases hp : S.track.uncommittedSteps = []
    · simp [hp]
    · simp [hp]

/-- Witness for C5: a concrete rejected revert (empty history). -/
theorem c5_revert_rejection_witness :
    revertCommit ⟨[], ⟨[], [], [], []⟩⟩ ⟨"m", 0, [], [], false⟩ = (false, none) :=
  (c5_revert_rejection ⟨[], ⟨[], [], [], []⟩⟩ ⟨"m", 0, [], [], false⟩).2
    ((c5_revert_rejection ⟨[], ⟨[], [], [], []⟩⟩ ⟨"m", 0, [], [], false⟩).1.mpr
      (Or.inl rfl))

/-- C7 counterexample: a two-step commit (insert "ab" at 0, then insert "X"
at 3, committed over document "cd").  Walking the stored inverses in
reverse, both apply; the source *appends* each produced fragment at the end
of the pipeline (mirror-paired with its slot), yielding the fragment list
`[m0, m1, w1, w0]`, while the claim's "insert at slot i" would yield
`[w0, m0, w1, m1]`.  The claim is false of the code. -/
theorem c7_insert_at_slot_counterexample :
    (revertGo [⟨0, 2, []⟩, ⟨3, 4, []⟩] 2
        (Mapping.ofMaps [⟨0, 0, 2⟩, ⟨3, 0, 1⟩]) ⟨['a', 'b', 'c', 'X', 'd'], []⟩).1.maps
      = [⟨0, 0, 2⟩, ⟨3, 0, 1⟩, ⟨3, 1, 0⟩, ⟨0, 2, 0⟩] ∧
    (revertGoSpec [⟨0, 2, []⟩, ⟨3, 4, []⟩] 2
        (Mapping.ofMaps [⟨0, 0, 2⟩, ⟨3, 0, 1⟩]) ⟨['a', 'b', 'c', 'X', 'd'], []⟩).1.maps
      = [⟨0, 2, 0⟩, ⟨0, 0, 2⟩, ⟨3, 1, 0⟩, ⟨3, 0, 1⟩] ∧
    (revertGo [⟨0, 2, []⟩, ⟨3, 4, []⟩] 2
        (Mapping.ofMaps [⟨0, 0, 2⟩, ⟨3, 0, 1⟩]) ⟨['a', 'b', 'c', 'X', 'd'], []⟩).1.maps
      ≠ (revertGoSpec [⟨0, 2, []⟩, ⟨3, 4, []⟩] 2
        (Mapping.ofMaps [⟨0, 0, 2⟩, ⟨3, 0, 1⟩]) ⟨['a', 'b', 'c', 'X', 'd'], []⟩).1.maps := by
  refine ⟨by decide, by decide, by decide⟩

/-- C7 amended: when the remapped operation at index `i` applies
successfully, the position-mapping fragment it produced is *appended at the
end* of the cumulative remap pipeline and mirror-paired with slot `i`; the
appended fragment lies inside the window of every slice
`remap.slice(j + 1)` used by the subsequent (lower-index) iterations, so
they map through it. -/
theorem c7_append_with_mirror_amended (csteps : List RStep) (i : Nat) (remap : Mapping)
    (tr tr' : Tr) (st remapped : RStep)
    (hst : csteps[i]? = some st)
    (hmap : st.mapThrough (remap.slice (i + 1)) = some remapped)
    (happ : tr.maybeStep remapped = (tr', true)) :
    revertGo csteps (i + 1) remap tr
      = revertGo csteps i (remap.appendMap remapped.getMap (some i)) tr' ∧
    (remap.appendMap remapped.getMap (some i)).maps = remap.maps ++ [remapped.getMap] ∧
    (remap.appendMap remapped.getMap (some i)).mirror
      = remap.mirror ++ [(remap.maps.length, i)] ∧
    (∀ j : Nat, j + 1 ≤ remap.maps.length →
      ((remap.appendMap remapped.getMap (some i)).slice (j + 1)).from_ ≤ remap.maps.length ∧
      remap.maps.length < ((remap.appendMap remapped.getMap (some i)).slice (j + 1)).to_) := by
  refine ⟨?_, by simp [Mapping.appendMap], by simp [Mapping.appendMap], ?_⟩
  · simp [revertGo, hst, hmap, happ]
  · intro j hj
    constructor
    · simpa [Mapping.appendMap, Mapping.slice] using hj
    · simp [Mapping.appendMap, Mapping.slice]

/-- Witness for C7 amended: the second operation of the counterexample
commit, applied at index 1. -/
theorem c7_append_with_mirror_amended_witness :
    revertGo [⟨0, 2, []⟩, ⟨3, 4, []⟩] 2
        (Mapping.ofMaps [⟨0, 0, 2⟩, ⟨3, 0, 1⟩]) ⟨['a', 'b', 'c', 'X', 'd'], []⟩
      = revertGo [⟨0, 2, []⟩, ⟨3, 4, []⟩] 1
        ((Mapping.ofMaps [⟨0, 0, 2⟩, ⟨3, 0, 1⟩]).appendMap
          (RStep.getMap ⟨3, 4, []⟩) (some 1)) ⟨['a', 'b', 'c', 'd'], [⟨3, 4, []⟩]⟩ :=
  (c7_append_with_mirror_amended [⟨0, 2, []⟩, ⟨3, 4, []⟩] 1
    (Mapping.ofMaps [⟨0, 0, 2⟩, ⟨3, 0, 1⟩]) ⟨['a', 'b', 'c', 'X', 'd'], []⟩
    ⟨['a', 'b', 'c', 'd'], [⟨3, 4, []⟩]⟩ ⟨3, 4, []⟩ ⟨3, 4, []⟩
    (by decide) (by decide) (by decide)).1

/-- C8 failing input (the spec is the intent, the code has a slip): with one
commit in history and a span attributed to commit id `0`, highlighting that
commit produces *no* decorations — the filter `span.commit && ...` treats
the id `0` as falsy — although the claim (and the spec) require exactly one
decoration for the span attributed to the highlighted commit. -/
theorem c8_zero_id_never_highlighted :
    (highlightApply
        (some (.add ⟨"c0", 0, [⟨0, 0, ['a', 'b']⟩], [⟨0, 0, 2⟩], false⟩)) false id
        ⟨[⟨0, 2, some 0⟩], [⟨"c0", 0, [⟨0, 0, ['a', 'b']⟩], [⟨0, 0, 2⟩], false⟩], [], []⟩
        ⟨[], none⟩).deco = [] ∧
    ([⟨0, 2, some 0⟩] : List Span).filter (fun sp => sp.commit == some 0)
      = [⟨0, 2, some 0⟩] ∧
    ([⟨"c0", 0, [⟨0, 0, ['a', 'b']⟩], [⟨0, 0, 2⟩], false⟩] : List Commit)[0]?
      = some ⟨"c0", 0, [⟨0, 0, ['a', 'b']⟩], [⟨0, 0, 2⟩], false⟩ := by
  refine ⟨by decide, by decide, by decide⟩

/-- C9: applying the highlight `add(c)` transition twice in a row with no
document change yields the same overlay state as applying it once. -/
theorem c9_highlight_idempotent (c : Commit) (ts : TrackState)
    (remapDeco : List Deco → List Deco) (prev : HighlightState) :
    highlightApply (some (.add c)) false remapDeco ts
        (highlightApply (some (.add c)) false remapDeco ts prev)
      = highlightApply (some (.add c)) false remapDeco ts prev := by
  by_cases h : prev.commit = some c
  · simp [highlightApply, h]
  · simp [highlightApply, h]

/-- C3 amended: in the survivor phase, `from` is mapped through the
cumulative mapping with assoc `1` (right bias: it moves past content
inserted at it) and `to` with assoc `-1` (left bias: it stays before
content inserted at it); the span is dropped exactly when the remapped
`from ≥ to`, and otherwise kept with its original attribution. -/
theorem c3_survivor_phase_amended (ms : List StepMap) (map : List Span) :
    survivorLoop ms map = map.filterMap fun sp =>
      let f := mapL ms sp.from_ 1
      let t := mapL ms sp.to_ (-1)
      if f < t then some ⟨f, t, sp.commit⟩ else none := by
  induction map with
  | nil => rfl
  | cons sp rest ih =>
      simp only [survivorLoop, List.filterMap_cons]
      by_cases h : mapL ms sp.from_ 1 < mapL ms sp.to_ (-1)
      · simp [h, ih]
      · simp [h, ih]

end TrackChanges
